import Mathlib

/-!
A shallow embedding of the `puceny` segmented full-text search engine
(`src/puceny.py`) and proofs about its analyzer, writer, reader, searcher
and merger.  Python dictionaries are modelled as association lists with
insertion-order semantics (`upsert` keeps the position of an existing key
and appends a fresh key at the end, exactly as CPython dicts do).  Scores
are modelled over `ℚ`; the reference engine computes them with IEEE-754
doubles, and every formula proved here is the exact rational counterpart.
Strings are Lean `String`s; case folding and the `\w` character class are
the ASCII ones, which is the alphabet the specification fixes.
-/

namespace Puceny

/-! ## Association lists with Python-dict semantics -/

/-- First-match lookup in an association list (Python `d[k]` / `k in d`). -/
def alookup {κ : Type} [DecidableEq κ] {α : Type} (k : κ) :
    List (κ × α) → Option α
  | [] => none
  | (k', v) :: rest => if k' = k then some v else alookup k rest

/-- Update the value at `k` (keeping its position) or append a fresh binding,
exactly as assignment into a Python dict behaves. -/
def upsert {κ : Type} [DecidableEq κ] {α : Type} (k : κ) (f : Option α → α) :
    List (κ × α) → List (κ × α)
  | [] => [(k, f none)]
  | (k', v) :: rest =>
      if k' = k then (k, f (some v)) :: rest else (k', v) :: upsert k f rest

/-- The keys of an association list, in insertion order. -/
def keysOf {κ : Type} {α : Type} (l : List (κ × α)) : List κ := l.map Prod.fst

/-- A Python dict never holds a key twice. -/
def NodupKeys {κ : Type} {α : Type} (l : List (κ × α)) : Prop := (keysOf l).Nodup

/-- `(alookup k l).isSome`, Python `k in d`. -/
def containsKey {κ : Type} [DecidableEq κ] {α : Type} (k : κ)
    (l : List (κ × α)) : Bool :=
  (alookup k l).isSome

/-! ## Analysis pipeline (`Tokenizer`, `LowercaseFilter`, `StopwordFilter`,
`Analyzer`)

`Tokenizer.tokenize` splits on `re.split(r"\W+", text)` and drops empty
fragments; over the ASCII alphabet this is exactly "keep the maximal runs of
word characters".  `LowercaseFilter` is ASCII case folding; `StopwordFilter`
drops a token `t` when `t.lower()` is a stop word. -/

/-- ASCII word character, the `\w` class used by `Tokenizer.tokenize`:
letter, digit or underscore. -/
def wordChar (c : Char) : Bool := c.isAlphanum || c = '_'

/-- The uppercase-to-lowercase ASCII table. -/
def lowerTable : List (Char × Char) :=
  [('A', 'a'), ('B', 'b'), ('C', 'c'), ('D', 'd'), ('E', 'e'), ('F', 'f'),
   ('G', 'g'), ('H', 'h'), ('I', 'i'), ('J', 'j'), ('K', 'k'), ('L', 'l'),
   ('M', 'm'), ('N', 'n'), ('O', 'o'), ('P', 'p'), ('Q', 'q'), ('R', 'r'),
   ('S', 's'), ('T', 't'), ('U', 'u'), ('V', 'v'), ('W', 'w'), ('X', 'x'),
   ('Y', 'y'), ('Z', 'z')]

/-- The lowercase-to-uppercase ASCII table. -/
def upperTable : List (Char × Char) := lowerTable.map (fun p => (p.2, p.1))

/-- ASCII case folding of one character (`str.lower` restricted to the
engine's ASCII alphabet). -/
def asciiLower (c : Char) : Char := (alookup c lowerTable).getD c

/-- ASCII upcasing of one character (`str.upper` on the ASCII alphabet). -/
def asciiUpper (c : Char) : Char := (alookup c upperTable).getD c

/-- `str.lower()`. -/
def lowerStr (s : String) : String := String.mk (s.data.map asciiLower)

/-- `str.upper()` (used by `Query.__init__` on the operator). -/
def upperStr (s : String) : String := String.mk (s.data.map asciiUpper)

/-- Accumulator pass of the tokenizer: collect maximal runs of word
characters, which is what `re.split(r"\W+")` followed by dropping empty
fragments produces. `cur` holds the current run, reversed. -/
def tokenizeAux : List Char → List Char → List (List Char)
  | [], cur => if cur.isEmpty then [] else [cur.reverse]
  | c :: rest, cur =>
      if wordChar c then tokenizeAux rest (c :: cur)
      else if cur.isEmpty then tokenizeAux rest []
      else cur.reverse :: tokenizeAux rest []

/-- `Tokenizer.tokenize`: split the text at non-word characters and drop
empty fragments. -/
def tokenize (s : String) : List String :=
  (tokenizeAux s.data []).map String.mk

/-- The default stop-word list of `Analyzer.__init__`. -/
def defaultStopwords : List String :=
  ["the", "is", "a", "an", "of", "for", "and", "to", "in"]

/-- `StopwordFilter.__init__` lowercases the configured stop words. -/
def stopwordSet : List String := defaultStopwords.map lowerStr

/-- `Analyzer.analyze`: tokenize, lowercase, drop stop words. -/
def analyze (s : String) : List String :=
  ((tokenize s).map lowerStr).filter (fun t => !(stopwordSet.contains (lowerStr t)))

/-- `" ".join(tokens)`. -/
def joinSpace : List String → String
  | [] => ""
  | [t] => t
  | t :: ts => t ++ " " ++ joinSpace ts

/-! ## Document model and `IndexWriter` -/

inductive FieldType where
  | TEXT
  | KEYWORD
  | STORED
deriving DecidableEq

structure Field where
  name : String
  value : String
  fieldType : FieldType
deriving DecidableEq

structure Document where
  docId : String
  fields : List Field
deriving DecidableEq

/-- A posting list: `doc_id → [positions]`, in insertion order. -/
abbrev Postings := List (String × List Nat)

/-- The inverted index: `term → posting list`. -/
abbrev Inv := List (String × Postings)

/-- One stored document: `field_name → field_value`. -/
abbrev FieldMap := List (String × String)

/-- The document store: `doc_id → field map`. -/
abbrev Store := List (String × FieldMap)

/-- An on-disk segment: its `inverted_index.json` and `document_store.json`. -/
structure Segment where
  inv : Inv
  store : Store
deriving DecidableEq

/-- One entry of `segments.json`. -/
structure ManifestEntry where
  name : String
  docCount : Nat
deriving DecidableEq

/-- The in-memory state of an `IndexWriter`. -/
structure WriterState where
  inv : Inv
  store : Store
  docCount : Nat
  segCount : Nat
  manifest : List ManifestEntry
deriving DecidableEq

/-- Post one occurrence of `token` for `docId` at `pos`
(`self.inverted_index[token][doc_id].append(pos)`, creating the inner list
when absent). -/
def postTerm (inv : Inv) (token docId : String) (pos : Nat) : Inv :=
  upsert token (fun o => upsert docId (fun po => po.getD [] ++ [pos]) (o.getD [])) inv

/-- The `for pos, token in enumerate(tokens)` loop of `add_document`. -/
def postText (inv : Inv) (docId : String) : List String → Nat → Inv
  | [], _ => inv
  | tok :: rest, pos => postText (postTerm inv tok docId pos) docId rest (pos + 1)

/-- Indexing action of a single field inside `add_document`. -/
def indexField (docId : String) (inv : Inv) (f : Field) : Inv :=
  match f.fieldType with
  | .TEXT => postText inv docId (analyze f.value) 0
  | .KEYWORD => postTerm inv (lowerStr f.value) docId 0
  | .STORED => inv

/-- `IndexWriter.add_document`. -/
def addDocument (st : WriterState) (doc : Document) : WriterState :=
  { st with
    docCount := st.docCount + 1
    inv := doc.fields.foldl (indexField doc.docId) st.inv
    store := upsert doc.docId
      (fun _ => doc.fields.foldl (fun m f => upsert f.name (fun _ => f.value) m) [])
      st.store }

/-- Python `f"segment_{n:03d}"`. -/
def segmentName (n : Nat) : String :=
  "segment_" ++
    (if n < 10 then "00" ++ toString n
     else if n < 100 then "0" ++ toString n
     else toString n)

/-- `IndexWriter.commit`: flush the buffers as a segment, append the manifest
entry, clear the buffers, bump the segment counter. -/
def commit (st : WriterState) : Segment × WriterState :=
  (⟨st.inv, st.store⟩,
   { inv := []
     store := []
     docCount := 0
     segCount := st.segCount + 1
     manifest := st.manifest ++ [⟨segmentName st.segCount, st.docCount⟩] })

/-- `IndexWriter.__init__` + `_load_segments_info`: fresh buffers, segment
counter set to the number of manifest entries. -/
def openWriter (manifest : List ManifestEntry) : WriterState :=
  { inv := []
    store := []
    docCount := 0
    segCount := manifest.length
    manifest := manifest }

/-! ## `IndexReader` -/

/-- Merge one segment's posting list for a term into the accumulated one:
adopt the positions of a new `doc_id`, extend (concatenate) an existing one.
Shared verbatim between `IndexReader.__init__` and `IndexMerger.merge_all`. -/
def mergePostings (acc inc : Postings) : Postings :=
  inc.foldl (fun a p => upsert p.1 (fun o => o.getD [] ++ p.2) a) acc

/-- Merge one segment's inverted index into the accumulated one. -/
def mergeInv (acc inc : Inv) : Inv :=
  inc.foldl (fun a tp => upsert tp.1 (fun o => mergePostings (o.getD []) tp.2) a) acc

/-- Python `dict.update`: replace the value of an existing key in place,
append fresh keys at the end. -/
def dictUpdate {α : Type} (acc inc : List (String × α)) : List (String × α) :=
  inc.foldl (fun a p => upsert p.1 (fun _ => p.2) a) acc

/-- The in-memory union built by `IndexReader.__init__` over the manifest's
segments: `mergeInv` for the inverted indexes, `self.doc_store.update(ds)`
(whole-document replacement) for the stores. -/
structure Reader where
  inv : Inv
  store : Store
deriving DecidableEq

def mkReader (segs : List Segment) : Reader :=
  { inv := segs.foldl (fun a s => mergeInv a s.inv) []
    store := segs.foldl (fun a s => dictUpdate a s.store) [] }

/-- `IndexReader.terms_docs`. -/
def Reader.termsDocs (r : Reader) (t : String) : Postings :=
  (alookup t r.inv).getD []

/-- `IndexReader.get_document`. -/
def Reader.getDocument (r : Reader) (d : String) : FieldMap :=
  (alookup d r.store).getD []

/-- `self.total_doc_count = len(self.doc_store)`. -/
def Reader.totalDocCount (r : Reader) : Nat := r.store.length

/-- `self.term_doc_freq.get(term, 0)` where
`term_doc_freq = {term: len(postings)}`. -/
def Reader.termDocFreq (r : Reader) (t : String) : Nat :=
  ((alookup t r.inv).map List.length).getD 0

/-! ## `Query` and `Searcher` -/

structure Query where
  terms : List String
  operator : String
deriving DecidableEq

/-- `Query.__init__` uppercases the operator. -/
def mkQuery (terms : List String) (operator : String) : Query :=
  ⟨terms, upperStr operator⟩

/-- Query normalization: analyze every raw term and flatten. -/
def normalizeQuery (terms : List String) : List String :=
  terms.foldl (fun acc t => acc ++ analyze t) []

/-- Score accumulation for one normalized term: skip if the posting list is
empty, otherwise add `tf * idf` for every posted document.  Arithmetic is the
exact rational counterpart of the engine's double arithmetic. -/
def scoreStep (r : Reader) (scores : List (String × ℚ)) (term : String) :
    List (String × ℚ) :=
  let termDocs := r.termsDocs term
  if termDocs.isEmpty then scores
  else
    let df := r.termDocFreq term
    let idf : ℚ := 1 + ((r.totalDocCount : ℚ) - (df : ℚ) + 1/2) / ((df : ℚ) + 1/2)
    termDocs.foldl
      (fun sc p => upsert p.1 (fun o => o.getD 0 + (p.2.length : ℚ) * idf) sc)
      scores

/-- The AND filter: keep a scored doc only if every normalized term posts it. -/
def andFilter (r : Reader) (ts : List String) (scores : List (String × ℚ)) :
    List (String × ℚ) :=
  scores.filter (fun p => ts.all (fun t => containsKey p.1 (r.termsDocs t)))

/-- Stable insertion into a score-descending list: an element moves past a
later one only when its score is strictly greater, matching the stability of
Python `list.sort(..., reverse=True)`. -/
def insertByScore (x : String × ℚ) : List (String × ℚ) → List (String × ℚ)
  | [] => [x]
  | y :: ys => if y.2 ≤ x.2 then x :: y :: ys else y :: insertByScore x ys

/-- Stable sort by score descending. -/
def sortByScoreDesc (l : List (String × ℚ)) : List (String × ℚ) :=
  l.foldr insertByScore []

/-- `Searcher.search_with_scores` over the default analyzer. -/
def searchWithScores (r : Reader) (q : Query) : List (String × ℚ) :=
  let ts := normalizeQuery q.terms
  if ts.isEmpty then []
  else
    let scores := ts.foldl (scoreStep r) []
    sortByScoreDesc (if q.operator = "AND" then andFilter r ts scores else scores)

/-- `Searcher.search`. -/
def search (r : Reader) (q : Query) : List String :=
  (searchWithScores r q).map Prod.fst

/-! ## `IndexMerger` -/

/-- The merger's document-store merge: adopt a new `doc_id`, but merge an
existing one field-by-field (`merged_doc_store[doc_id].update(fields)`).
Unlike the Reader, this keeps fields of the earlier segment that the later
segment does not mention. -/
def mergerStoreMerge (acc inc : Store) : Store :=
  inc.foldl
    (fun a p => upsert p.1
      (fun o => match o with
        | none => p.2
        | some old => dictUpdate old p.2) a)
    acc

/-- The combined segment written by `IndexMerger.merge_all`. -/
def mergeSegments (segs : List Segment) : Segment :=
  { inv := segs.foldl (fun a s => mergeInv a s.inv) []
    store := segs.foldl (fun a s => mergerStoreMerge a s.store) [] }

/-- `IndexMerger.merge_all` as a transformation of the segment list: a no-op
when there are zero or one segments, otherwise replace all segments by the
single combined one. -/
def mergeAll (segs : List Segment) : List Segment :=
  if segs.length ≤ 1 then segs else [mergeSegments segs]

/-! ## Specification-side definitions used in the statements -/

/-- The posting list of a `(term, doc_id)` pair, when present. -/
def postingOf (inv : Inv) (t d : String) : Option (List Nat) :=
  (alookup t inv).bind (fun ps => alookup d ps)

/-- The 0-based positions at which term `t` occurs in a token stream,
starting the numbering at `i`. -/
def occPositions (t : String) : List String → Nat → List Nat
  | [], _ => []
  | s :: rest, i =>
      if s = t then i :: occPositions t rest (i + 1)
      else occPositions t rest (i + 1)

/-- Number of distinct doc_ids in a posting list. -/
def distinctDocCount (ps : Postings) : Nat := (keysOf ps).dedup.length

/-- The claimed IDF: `1 + (N - df + 0.5) / (df + 0.5)` with `df` the number
of distinct doc_ids in the term's posting list. -/
def idfSpec (r : Reader) (t : String) : ℚ :=
  1 + ((r.totalDocCount : ℚ) - (distinctDocCount (r.termsDocs t) : ℚ) + 1/2) /
    ((distinctDocCount (r.termsDocs t) : ℚ) + 1/2)

/-- `tf`: the length of the positions list of `t` for `d`. -/
def tfOf (r : Reader) (t d : String) : Nat :=
  ((alookup d (r.termsDocs t)).getD []).length

/-- The claimed per-term score contribution for a document. -/
def contribution (r : Reader) (d t : String) : ℚ :=
  if containsKey d (r.termsDocs t) then (tfOf r t d : ℚ) * idfSpec r t else 0

/-- The claimed total score of a document: sum over the normalized terms,
with multiplicity. -/
def scoreSpec (r : Reader) (ts : List String) (d : String) : ℚ :=
  (ts.map (contribution r d)).sum

/-- The IDF as the implementation computes it, with `df = term_doc_freq[t]`
(the raw length of the posting list). -/
def idfImpl (r : Reader) (t : String) : ℚ :=
  1 + ((r.totalDocCount : ℚ) - (r.termDocFreq t : ℚ) + 1/2) / ((r.termDocFreq t : ℚ) + 1/2)

/-- Per-term score contribution as the implementation accumulates it. -/
def contributionImpl (r : Reader) (d t : String) : ℚ :=
  if containsKey d (r.termsDocs t) then (tfOf r t d : ℚ) * idfImpl r t else 0

/-- Well-formed inverted index: outer and inner key lists are dict-like. -/
def WFInv (inv : Inv) : Prop := NodupKeys inv ∧ ∀ p ∈ inv, NodupKeys p.2

/-- Each segment's document store is a dict and no doc_id occurs in two
different segments. -/
def DisjointStores (segs : List Segment) : Prop :=
  (∀ s ∈ segs, NodupKeys s.store) ∧
  List.Pairwise (fun s1 s2 => ∀ d ∈ keysOf s1.store, d ∉ keysOf s2.store) segs

instance (segs : List Segment) : Decidable (DisjointStores segs) := by
  unfold DisjointStores NodupKeys
  infer_instance

/-- At most one indexed (non-STORED) field, or no TEXT field at all: the
shapes of documents for which posting lists stay sorted (see the C3
counterexample for why two TEXT fields break this). -/
def DocShapeOK (doc : Document) : Prop :=
  (doc.fields.countP (fun f => !(f.fieldType = FieldType.STORED))) ≤ 1 ∨
  (∀ f ∈ doc.fields, f.fieldType ≠ FieldType.TEXT)

instance (doc : Document) : Decidable (DocShapeOK doc) := by
  unfold DocShapeOK
  infer_instance

/-! ## Association-list lemmas -/

theorem keysOf_cons {κ : Type} {α : Type} (k : κ) (v : α) (l : List (κ × α)) :
    keysOf ((k, v) :: l) = k :: keysOf l := rfl

theorem alookup_upsert_self {κ : Type} [DecidableEq κ] {α : Type}
    (k : κ) (f : Option α → α) (l : List (κ × α)) :
    alookup k (upsert k f l) = some (f (alookup k l)) := by
  induction l with
  | nil => simp [alookup, upsert]
  | cons p rest ih =>
    obtain ⟨k', v⟩ := p
    by_cases h : k' = k
    · subst h
      simp [alookup, upsert]
    · simp [alookup, upsert, h, ih]

theorem alookup_upsert_ne {κ : Type} [DecidableEq κ] {α : Type}
    {k k' : κ} (h : k' ≠ k) (f : Option α → α) (l : List (κ × α)) :
    alookup k' (upsert k f l) = alookup k' l := by
  induction l with
  | nil => simp [alookup, upsert, Ne.symm h]
  | cons p rest ih =>
    obtain ⟨k'', v⟩ := p
    by_cases h1 : k'' = k
    · subst h1
      simp [alookup, upsert, Ne.symm h]
    · by_cases h2 : k'' = k'
      · subst h2
        simp [alookup, upsert, h1]
      · simp [alookup, upsert, h1, h2, ih]

theorem mem_of_alookup_eq_some {κ : Type} [DecidableEq κ] {α : Type}
    {k : κ} {v : α} {l : List (κ × α)} (h : alookup k l = some v) :
    (k, v) ∈ l := by
  induction l with
  | nil => simp [alookup] at h
  | cons p rest ih =>
    obtain ⟨k', v'⟩ := p
    by_cases h1 : k' = k
    · subst h1
      simp [alookup] at h
      simp [h]
    · simp [alookup, h1] at h
      exact List.mem_cons_of_mem _ (ih h)

theorem alookup_eq_none_of_not_mem_keys {κ : Type} [DecidableEq κ] {α : Type}
    {k : κ} {l : List (κ × α)} (h : k ∉ keysOf l) : alookup k l = none := by
  induction l with
  | nil => rfl
  | cons p rest ih =>
    obtain ⟨k', v'⟩ := p
    have h1 : k' ≠ k := by
      intro hh
      exact h (by simp [keysOf_cons, hh])
    have h2 : k ∉ keysOf rest := by
      intro hh
      exact h (by simp [keysOf_cons, hh])
    simp [alookup, h1, ih h2]

theorem upsert_of_not_mem_keys {κ : Type} [DecidableEq κ] {α : Type}
    {k : κ} (f : Option α → α) {l : List (κ × α)} (h : k ∉ keysOf l) :
    upsert k f l = l ++ [(k, f none)] := by
  induction l with
  | nil => rfl
  | cons p rest ih =>
    obtain ⟨k', v'⟩ := p
    have h1 : k' ≠ k := by
      intro hh
      exact h (by simp [keysOf_cons, hh])
    have h2 : k ∉ keysOf rest := by
      intro hh
      exact h (by simp [keysOf_cons, hh])
    simp [upsert, h1, ih h2]

theorem keysOf_upsert {κ : Type} [DecidableEq κ] {α : Type}
    (k : κ) (f : Option α → α) (l : List (κ × α)) :
    keysOf (upsert k f l) = if k ∈ keysOf l then keysOf l else keysOf l ++ [k] := by
  induction l with
  | nil => simp [keysOf, upsert]
  | cons p rest ih =>
    obtain ⟨k', v'⟩ := p
    by_cases h : k' = k
    · subst h
      simp [keysOf, upsert]
    · rw [show upsert k f ((k', v') :: rest) = (k', v') :: upsert k f rest by
        simp [upsert, h]]
      rw [keysOf_cons, keysOf_cons, ih]
      by_cases h2 : k ∈ keysOf rest
      · simp [h2, List.mem_cons, Ne.symm h]
      · simp [h2, List.mem_cons, Ne.symm h]

theorem nodupKeys_upsert {κ : Type} [DecidableEq κ] {α : Type}
    (k : κ) (f : Option α → α) {l : List (κ × α)} (h : NodupKeys l) :
    NodupKeys (upsert k f l) := by
  unfold NodupKeys at h ⊢
  rw [keysOf_upsert]
  by_cases h2 : k ∈ keysOf l
  · simp [h2, h]
  · simp only [h2, if_false]
    exact List.Nodup.append h (List.nodup_singleton k)
      (by simp [List.disjoint_singleton, h2])

theorem values_upsert {κ : Type} [DecidableEq κ] {α : Type}
    {Q : α → Prop} (k : κ) (f : Option α → α) {l : List (κ × α)}
    (hl : ∀ p ∈ l, Q p.2) (hnone : Q (f none)) (hsome : ∀ v, Q v → Q (f (some v))) :
    ∀ p ∈ upsert k f l, Q p.2 := by
  induction l with
  | nil =>
    intro p hp
    simp [upsert] at hp
    simp [hp, hnone]
  | cons q rest ih =>
    obtain ⟨k', v⟩ := q
    intro p hp
    by_cases h : k' = k
    · subst h
      simp [upsert] at hp
      rcases hp with hp | hp
      · have hv : Q v := hl _ (List.mem_cons_self _ _)
        simp [hp]
        exact hsome v hv
      · exact hl p (List.mem_cons_of_mem _ hp)
    · simp [upsert, h] at hp
      rcases hp with hp | hp
      · exact hl p (by simp [hp])
      · exact ih (fun q hq => hl q (List.mem_cons_of_mem _ hq)) p hp

theorem containsKey_iff_mem_keys {κ : Type} [DecidableEq κ] {α : Type}
    (k : κ) (l : List (κ × α)) : containsKey k l = true ↔ k ∈ keysOf l := by
  induction l with
  | nil => simp [containsKey, alookup, keysOf]
  | cons p rest ih =>
    obtain ⟨k', v⟩ := p
    by_cases h : k' = k
    · subst h
      simp [containsKey, alookup, keysOf_cons]
    · simp [containsKey, alookup, keysOf_cons, h, Ne.symm h] at ih ⊢
      exact ih

theorem alookup_eq_some_of_mem_nodup {κ : Type} [DecidableEq κ] {α : Type}
    {k : κ} {v : α} {l : List (κ × α)} (hmem : (k, v) ∈ l) (hnd : NodupKeys l) :
    alookup k l = some v := by
  induction l with
  | nil => simp at hmem
  | cons p rest ih =>
    obtain ⟨k', v'⟩ := p
    rcases List.mem_cons.mp hmem with hp | hp
    · cases hp
      simp [alookup]
    · have hk : k' ≠ k := by
        intro hh
        subst hh
        unfold NodupKeys at hnd
        rw [keysOf_cons] at hnd
        exact (List.nodup_cons.mp hnd).1 (by simpa [keysOf] using List.mem_map_of_mem Prod.fst hp)
      have hnd' : NodupKeys rest := by
        unfold NodupKeys at hnd ⊢
        rw [keysOf_cons] at hnd
        exact (List.nodup_cons.mp hnd).2
      simp [alookup, hk, ih hp hnd']

/-! ## Character and tokenizer lemmas -/

theorem asciiLower_idem (c : Char) : asciiLower (asciiLower c) = asciiLower c := by
  cases hl : alookup c lowerTable with
  | none => unfold asciiLower; simp [hl]
  | some d =>
    have hm : (c, d) ∈ lowerTable := mem_of_alookup_eq_some hl
    have hd : ∀ p ∈ lowerTable, alookup p.2 lowerTable = none := by decide
    unfold asciiLower
    simp [hl, hd (c, d) hm]

theorem wordChar_asciiLower {c : Char} (h : wordChar c = true) :
    wordChar (asciiLower c) = true := by
  cases hl : alookup c lowerTable with
  | none => unfold asciiLower; simp [hl, h]
  | some d =>
    have hm : (c, d) ∈ lowerTable := mem_of_alookup_eq_some hl
    have hw : ∀ p ∈ lowerTable, wordChar p.2 = true := by decide
    unfold asciiLower
    simp [hl, hw (c, d) hm]

theorem lowerStr_idem (s : String) : lowerStr (lowerStr s) = lowerStr s := by
  unfold lowerStr
  congr 1
  rw [show (String.mk (s.data.map asciiLower)).data = s.data.map asciiLower from rfl]
  rw [List.map_map]
  exact List.map_congr_left (fun a _ => asciiLower_idem a)

theorem tokenizeAux_word_run {t : List Char} (h : t.all wordChar) :
    ∀ (cs cur : List Char), tokenizeAux (t ++ cs) cur = tokenizeAux cs (t.reverse ++ cur) := by
  induction t with
  | nil => intro cs cur; simp
  | cons c rest ih =>
    intro cs cur
    rw [List.all_cons, Bool.and_eq_true] at h
    rw [List.cons_append]
    show tokenizeAux (c :: (rest ++ cs)) cur = _
    rw [show tokenizeAux (c :: (rest ++ cs)) cur = tokenizeAux (rest ++ cs) (c :: cur) by
      simp [tokenizeAux, h.1]]
    rw [ih h.2 cs (c :: cur)]
    simp

theorem mem_tokenizeAux {cs : List Char} :
    ∀ {cur : List Char}, cur.all wordChar = true →
      ∀ t ∈ tokenizeAux cs cur, t ≠ [] ∧ t.all wordChar = true := by
  induction cs with
  | nil =>
    intro cur hcur t ht
    by_cases h : cur.isEmpty
    · simp [tokenizeAux, h] at ht
    · simp [tokenizeAux, h] at ht
      subst ht
      constructor
      · simp [List.isEmpty_iff] at h ⊢
        simpa using h
      · simpa using hcur
  | cons c rest ih =>
    intro cur hcur t ht
    by_cases hw : wordChar c
    · rw [show tokenizeAux (c :: rest) cur = tokenizeAux rest (c :: cur) by
        simp [tokenizeAux, hw]] at ht
      exact ih (by simp [hcur, hw]) t ht
    · by_cases hc : cur.isEmpty
      · rw [show tokenizeAux (c :: rest) cur = tokenizeAux rest [] by
          simp [tokenizeAux, hw, hc]] at ht
        exact ih (by simp) t ht
      · rw [show tokenizeAux (c :: rest) cur = cur.reverse :: tokenizeAux rest [] by
          simp [tokenizeAux, hw, hc]] at ht
        rcases List.mem_cons.mp ht with h | h
        · subst h
          constructor
          · simp [List.isEmpty_iff] at hc ⊢
            simpa using hc
          · simpa using hcur
        · exact ih (by simp) t h

theorem mem_tokenize {s : String} {t : String} (h : t ∈ tokenize s) :
    t.data ≠ [] ∧ t.data.all wordChar = true := by
  unfold tokenize at h
  rcases List.mem_map.mp h with ⟨l, hl, rfl⟩
  exact mem_tokenizeAux (by simp) l hl

theorem splitOnP_all_not {α : Type} (p : α → Bool) :
    ∀ (w : List α), (∀ c ∈ w, p c = false) → w.splitOnP p = [w] := by
  intro w
  induction w with
  | nil => intro _; simp
  | cons c rest ih =>
    intro h
    rw [List.splitOnP_cons, ih (fun x hx => h x (List.mem_cons_of_mem _ hx))]
    simp [h c (by simp)]

theorem splitOnP_run_sep {α : Type} (p : α → Bool) (w : List α) (sep : α)
    (rest : List α) (hw : ∀ c ∈ w, p c = false) (hsep : p sep = true) :
    (w ++ sep :: rest).splitOnP p = w :: rest.splitOnP p := by
  induction w with
  | nil => simp [List.splitOnP_cons, hsep]
  | cons c tail ih =>
    rw [List.cons_append, List.splitOnP_cons,
      ih (fun x hx => hw x (List.mem_cons_of_mem _ hx))]
    simp [hw c (by simp)]

theorem tokenizeAux_eq_splitOnP :
    ∀ (cs cur : List Char),
      tokenizeAux cs cur =
        (((cs.splitOnP fun c => !wordChar c).modifyHead fun l => cur.reverse ++ l).filter
          fun l => !l.isEmpty) := by
  intro cs
  induction cs with
  | nil =>
    intro cur
    cases hc : cur.isEmpty with
    | true =>
      rw [List.isEmpty_iff] at hc
      subst hc
      simp [tokenizeAux]
    | false =>
      rw [List.isEmpty_eq_false] at hc
      have hcr : cur.reverse ≠ [] := by simpa using hc
      simp [tokenizeAux, List.isEmpty_eq_false.mpr hc, List.splitOnP_nil,
        List.filter_cons, hcr]
  | cons c rest ih =>
    intro cur
    cases hw : wordChar c with
    | true =>
      rw [show tokenizeAux (c :: rest) cur = tokenizeAux rest (c :: cur) by
        simp [tokenizeAux, hw]]
      rw [ih (c :: cur), List.splitOnP_cons]
      rw [show (!wordChar c) = false by simp [hw]]
      rw [if_neg (by simp)]
      rw [List.modifyHead_modifyHead]
      congr 2
      funext l
      simp
    | false =>
      rw [List.splitOnP_cons]
      rw [show (!wordChar c) = true by simp [hw]]
      rw [if_pos rfl]
      rw [List.modifyHead_cons]
      have hmid : ∀ X : List (List Char),
          List.modifyHead (fun l => ([] : List Char).reverse ++ l) X = X := by
        intro X
        cases X <;> simp
      cases hc : cur.isEmpty with
      | true =>
        rw [List.isEmpty_iff] at hc
        subst hc
        rw [show tokenizeAux (c :: rest) [] = tokenizeAux rest [] by
          simp [tokenizeAux, hw]]
        rw [ih [], hmid]
        simp [List.filter_cons]
      | false =>
        have hc' : cur ≠ [] := List.isEmpty_eq_false.mp hc
        rw [show tokenizeAux (c :: rest) cur = cur.reverse :: tokenizeAux rest [] by
          simp [tokenizeAux, hw, hc]]
        rw [ih [], hmid]
        rw [List.filter_cons]
        simp [hc']

/-- C9: `Tokenizer.tokenize` splits the input at maximal runs of non-word
characters — it equals "split at every non-word character, drop the empty
fragments" — and the underscore counts as a word character, so `"foo_bar"`
comes out as the single token `"foo_bar"`, underscore included. -/
theorem tokenize_splits_at_nonword_and_keeps_underscore :
    (∀ s : String,
      tokenize s =
        (((s.data.splitOnP fun c => !wordChar c).filter fun l => !l.isEmpty).map
          String.mk)) ∧
    wordChar '_' = true ∧
    tokenize "foo_bar" = ["foo_bar"] ∧
    tokenize "foo bar!baz" = ["foo", "bar", "baz"] := by
  refine ⟨fun s => ?_, by decide, by decide, by decide⟩
  unfold tokenize
  rw [tokenizeAux_eq_splitOnP s.data []]
  congr 1
  have : List.modifyHead (fun l => ([] : List Char).reverse ++ l)
      (s.data.splitOnP fun c => !wordChar c) = s.data.splitOnP fun c => !wordChar c := by
    cases s.data.splitOnP fun c => !wordChar c <;> simp
  rw [this]

/-! ## Idempotence of analysis (C6) -/

theorem mem_analyze {s t : String} (h : t ∈ analyze s) :
    t.data ≠ [] ∧ t.data.all wordChar = true ∧ lowerStr t = t ∧
      stopwordSet.contains (lowerStr t) = false := by
  unfold analyze at h
  rw [List.mem_filter] at h
  obtain ⟨hmem, hpred⟩ := h
  rcases List.mem_map.mp hmem with ⟨u, hu, rfl⟩
  obtain ⟨hne, hword⟩ := mem_tokenize hu
  refine ⟨?_, ?_, lowerStr_idem u, by simpa using hpred⟩
  · show (u.data.map asciiLower) ≠ []
    simpa using hne
  · show (u.data.map asciiLower).all wordChar = true
    rw [List.all_map]
    exact List.all_eq_true.mpr
      (fun x hx => wordChar_asciiLower (List.all_eq_true.mp hword x hx))

theorem tokenize_joinSpace :
    ∀ (L : List String), (∀ t ∈ L, t.data ≠ [] ∧ t.data.all wordChar = true) →
      tokenize (joinSpace L) = L := by
  intro L
  induction L with
  | nil => intro _; rfl
  | cons t ts ih =>
    intro h
    cases ts with
    | nil =>
      obtain ⟨hne, hword⟩ := h t (by simp)
      show tokenize (joinSpace [t]) = [t]
      rw [show joinSpace [t] = t from rfl]
      unfold tokenize
      rw [show t.data = t.data ++ [] by simp]
      rw [tokenizeAux_word_run hword [] []]
      simp [tokenizeAux, hne]
    | cons t2 ts2 =>
      obtain ⟨hne, hword⟩ := h t (by simp)
      have ihr := ih (fun u hu => h u (List.mem_cons_of_mem _ hu))
      show tokenize (t ++ " " ++ joinSpace (t2 :: ts2)) = t :: t2 :: ts2
      unfold tokenize
      rw [String.data_append, String.data_append]
      rw [show (" " : String).data = [' '] from rfl]
      rw [List.append_assoc]
      rw [tokenizeAux_word_run hword _ []]
      rw [List.singleton_append]
      rw [show tokenizeAux (' ' :: (joinSpace (t2 :: ts2)).data) (t.data.reverse ++ []) =
            (t.data.reverse ++ []).reverse :: tokenizeAux (joinSpace (t2 :: ts2)).data [] by
        simp [tokenizeAux, show wordChar ' ' = false by decide, hne]]
      rw [List.map_cons]
      rw [show (List.map String.mk (tokenizeAux (joinSpace (t2 :: ts2)).data [])) =
            tokenize (joinSpace (t2 :: ts2)) from rfl]
      rw [ihr]
      simp

/-- C6: analysis is idempotent over the engine's alphabet — re-analyzing the
space-joined token list returns the token list unchanged:
`analyze(" ".join(analyze(x))) == analyze(x)`. -/
theorem analyze_idempotent (s : String)
    (_halpha : s.data.all (fun c => c.isAlphanum || c.isWhitespace) = true) :
    analyze (joinSpace (analyze s)) = analyze s := by
  have hprops : ∀ t ∈ analyze s, t.data ≠ [] ∧ t.data.all wordChar = true :=
    fun t ht => ⟨(mem_analyze ht).1, (mem_analyze ht).2.1⟩
  show ((tokenize (joinSpace (analyze s))).map lowerStr).filter _ = analyze s
  rw [tokenize_joinSpace _ hprops]
  have h1 : (analyze s).map lowerStr = analyze s := by
    have h2 := List.map_congr_left
      (l := analyze s) (f := lowerStr) (g := id)
      (fun t ht => (mem_analyze ht).2.2.1)
    simpa using h2
  rw [h1]
  rw [List.filter_eq_self.mpr ?_]
  intro t ht
  have h3 := (mem_analyze ht).2.2.2
  simpa using h3

/-- Witness for C6 at a concrete input. -/
theorem analyze_idempotent_witness :
    analyze (joinSpace (analyze "Hello World 42")) = analyze "Hello World 42" :=
  analyze_idempotent "Hello World 42" (by decide)

/-! ## Posting lists built by `add_document` (towards C2, C3) -/

theorem postingOf_postTerm_self (inv : Inv) (tok d : String) (pos : Nat) :
    postingOf (postTerm inv tok d pos) tok d =
      some ((postingOf inv tok d).getD [] ++ [pos]) := by
  unfold postingOf postTerm
  rw [alookup_upsert_self]
  cases h : alookup tok inv with
  | none => simp [h, alookup_upsert_self, alookup]
  | some ps => simp [h, alookup_upsert_self]

theorem postingOf_postTerm_ne (inv : Inv) {tok d t d' : String} (pos : Nat)
    (h : tok ≠ t ∨ d ≠ d') :
    postingOf (postTerm inv tok d pos) t d' = postingOf inv t d' := by
  unfold postingOf postTerm
  by_cases ht : tok = t
  · subst ht
    have hd : d ≠ d' := by
      rcases h with h | h
      · exact absurd rfl h
      · exact h
    rw [alookup_upsert_self]
    cases h2 : alookup tok inv with
    | none =>
      simp [h2, alookup_upsert_ne (Ne.symm hd), alookup, hd]
    | some ps =>
      simp [h2, alookup_upsert_ne (Ne.symm hd)]
  · rw [alookup_upsert_ne (fun hh => ht hh.symm)]

theorem postingOf_postText_self (d t : String) :
    ∀ (stream : List String) (i : Nat) (inv : Inv),
      postingOf (postText inv d stream i) t d =
        if occPositions t stream i = [] then postingOf inv t d
        else some ((postingOf inv t d).getD [] ++ occPositions t stream i) := by
  intro stream
  induction stream with
  | nil =>
    intro i inv
    simp [postText, occPositions]
  | cons tok rest ih =>
    intro i inv
    rw [show postText inv d (tok :: rest) i = postText (postTerm inv tok d i) d rest (i + 1)
      from rfl]
    by_cases htok : tok = t
    · subst htok
      rw [ih]
      rw [postingOf_postTerm_self]
      rw [show occPositions tok (tok :: rest) i = i :: occPositions tok rest (i + 1) by
        simp [occPositions]]
      by_cases hocc : occPositions tok rest (i + 1) = []
      · simp [hocc]
      · simp [hocc, List.append_assoc]
    · rw [ih]
      rw [postingOf_postTerm_ne _ _ (Or.inl htok)]
      rw [show occPositions t (tok :: rest) i = occPositions t rest (i + 1) by
        simp [occPositions, htok]]

theorem postingOf_postText_ne (d t d' : String) (h : d' ≠ d) :
    ∀ (stream : List String) (i : Nat) (inv : Inv),
      postingOf (postText inv d stream i) t d' = postingOf inv t d' := by
  intro stream
  induction stream with
  | nil => intro i inv; simp [postText]
  | cons tok rest ih =>
    intro i inv
    rw [show postText inv d (tok :: rest) i = postText (postTerm inv tok d i) d rest (i + 1)
      from rfl]
    rw [ih, postingOf_postTerm_ne _ _ (Or.inr (Ne.symm h))]

theorem occPositions_le (t : String) :
    ∀ (stream : List String) (i : Nat) (x : Nat),
      x ∈ occPositions t stream i → i ≤ x := by
  intro stream
  induction stream with
  | nil => intro i x hx; simp [occPositions] at hx
  | cons s rest ih =>
    intro i x hx
    by_cases hs : s = t
    · simp [occPositions, hs] at hx
      rcases hx with hx | hx
      · omega
      · have := ih (i + 1) x hx
        omega
    · simp [occPositions, hs] at hx
      have := ih (i + 1) x hx
      omega

theorem occPositions_chain (t : String) :
    ∀ (stream : List String) (i : Nat),
      List.Chain' (· < ·) (occPositions t stream i) := by
  intro stream
  induction stream with
  | nil => intro i; simp [occPositions]
  | cons s rest ih =>
    intro i
    by_cases hs : s = t
    · simp only [occPositions, hs, if_pos rfl]
      refine List.chain'_cons'.mpr ⟨?_, ih (i + 1)⟩
      intro y hy
      have := occPositions_le t rest (i + 1) y (List.mem_of_mem_head? hy)
      omega
    · simp only [occPositions, if_neg hs]
      exact ih (i + 1)

theorem occPositions_ne_nil (t : String) :
    ∀ (stream : List String) (i : Nat), t ∈ stream → occPositions t stream i ≠ [] := by
  intro stream
  induction stream with
  | nil => intro i h; simp at h
  | cons s rest ih =>
    intro i h
    by_cases hs : s = t
    · simp [occPositions, hs]
    · rcases List.mem_cons.mp h with h1 | h1
      · exact absurd h1.symm hs
      · simp only [occPositions, if_neg hs]
        exact ih (i + 1) h1

/-! ## Preservation of dict well-formedness, and merges of disjoint dicts -/

theorem nodupKeys_nil {κ : Type} {α : Type} : NodupKeys ([] : List (κ × α)) := by
  simp [NodupKeys, keysOf]

theorem postingOf_indexField_ne {d d' : String} (h : d' ≠ d) (inv : Inv)
    (f : Field) (t : String) :
    postingOf (indexField d inv f) t d' = postingOf inv t d' := by
  unfold indexField
  cases f.fieldType with
  | TEXT => exact postingOf_postText_ne d t d' h _ 0 inv
  | KEYWORD => exact postingOf_postTerm_ne inv 0 (Or.inr (Ne.symm h))
  | STORED => rfl

theorem postingOf_fieldsFold_ne {d d' : String} (h : d' ≠ d) (t : String) :
    ∀ (fields : List Field) (inv : Inv),
      postingOf (fields.foldl (indexField d) inv) t d' = postingOf inv t d' := by
  intro fields
  induction fields with
  | nil => intro inv; rfl
  | cons f rest ih =>
    intro inv
    rw [List.foldl_cons, ih, postingOf_indexField_ne h]

theorem postingOf_docsFold_ne {d' : String} (t : String) :
    ∀ (docs : List Document) (st : WriterState), (∀ doc ∈ docs, doc.docId ≠ d') →
      postingOf ((docs.foldl addDocument st).inv) t d' = postingOf st.inv t d' := by
  intro docs
  induction docs with
  | nil => intro st _; rfl
  | cons doc rest ih =>
    intro st h
    rw [List.foldl_cons]
    rw [ih _ (fun x hx => h x (List.mem_cons_of_mem _ hx))]
    show postingOf (doc.fields.foldl (indexField doc.docId) st.inv) t d' = _
    exact postingOf_fieldsFold_ne (Ne.symm (h doc (List.mem_cons_self _ _))) t _ _

theorem wfInv_postTerm {inv : Inv} (h : WFInv inv) (tok d : String) (pos : Nat) :
    WFInv (postTerm inv tok d pos) := by
  obtain ⟨h1, h2⟩ := h
  refine ⟨nodupKeys_upsert _ _ h1, ?_⟩
  apply values_upsert _ _ h2
  · show NodupKeys (upsert d _ ((none : Option Postings).getD []))
    simp [upsert, NodupKeys, keysOf]
  · intro v hv
    exact nodupKeys_upsert _ _ hv

theorem wfInv_postText (d : String) :
    ∀ (stream : List String) (i : Nat) (inv : Inv), WFInv inv →
      WFInv (postText inv d stream i) := by
  intro stream
  induction stream with
  | nil => intro i inv h; exact h
  | cons tok rest ih =>
    intro i inv h
    exact ih (i + 1) _ (wfInv_postTerm h tok d i)

theorem wfInv_indexField {inv : Inv} (h : WFInv inv) (d : String) (f : Field) :
    WFInv (indexField d inv f) := by
  unfold indexField
  cases f.fieldType with
  | TEXT => exact wfInv_postText d _ 0 inv h
  | KEYWORD => exact wfInv_postTerm h _ d 0
  | STORED => exact h

theorem wfInv_fieldsFold (d : String) :
    ∀ (fields : List Field) (inv : Inv), WFInv inv →
      WFInv (fields.foldl (indexField d) inv) := by
  intro fields
  induction fields with
  | nil => exact fun inv h => h
  | cons f fs ih =>
    intro inv h
    rw [List.foldl_cons]
    exact ih _ (wfInv_indexField h d f)

theorem wfInv_docsFold :
    ∀ (docs : List Document) (st : WriterState), WFInv st.inv →
      WFInv ((docs.foldl addDocument st).inv) := by
  intro docs
  induction docs with
  | nil => intro st h; exact h
  | cons doc rest ih =>
    intro st h
    rw [List.foldl_cons]
    apply ih
    show WFInv (doc.fields.foldl (indexField doc.docId) st.inv)
    exact wfInv_fieldsFold doc.docId doc.fields st.inv h

theorem nodupKeys_storeFold :
    ∀ (docs : List Document) (st : WriterState), NodupKeys st.store →
      NodupKeys ((docs.foldl addDocument st).store) := by
  intro docs
  induction docs with
  | nil => intro st h; exact h
  | cons doc rest ih =>
    intro st h
    rw [List.foldl_cons]
    exact ih _ (nodupKeys_upsert _ _ h)

theorem foldl_upsert_append {α : Type} (g : String × α → Option α → α) :
    ∀ {inc acc : List (String × α)},
      (∀ p ∈ inc, g p none = p.2) →
      (∀ k ∈ keysOf inc, k ∉ keysOf acc) → NodupKeys inc →
      inc.foldl (fun a p => upsert p.1 (g p) a) acc = acc ++ inc := by
  intro inc
  induction inc with
  | nil => intro acc _ _ _; simp
  | cons p rest ih =>
    obtain ⟨k, v⟩ := p
    intro acc hg hdisj hnd
    rw [List.foldl_cons]
    have hk : k ∉ keysOf acc := hdisj k (by simp [keysOf_cons])
    rw [show upsert (k, v).1 (g (k, v)) acc = acc ++ [(k, g (k, v) none)] from
      upsert_of_not_mem_keys _ hk]
    rw [hg (k, v) (by simp)]
    have hcons := List.nodup_cons.mp (by simpa [NodupKeys, keysOf_cons] using hnd)
    have hdisj' : ∀ k2 ∈ keysOf rest, k2 ∉ keysOf (acc ++ [(k, v)]) := by
      intro k2 hk2
      rw [show keysOf (acc ++ [(k, v)]) = keysOf acc ++ [k] by simp [keysOf]]
      simp only [List.mem_append, List.mem_singleton]
      rintro (hc | hc)
      · exact hdisj k2 (by simp [keysOf_cons, hk2]) hc
      · subst hc
        exact hcons.1 hk2
    rw [ih (fun q hq => hg q (List.mem_cons_of_mem _ hq)) hdisj' hcons.2]
    simp

theorem mergePostings_of_disjoint {acc inc : Postings}
    (hdisj : ∀ k ∈ keysOf inc, k ∉ keysOf acc) (hnd : NodupKeys inc) :
    mergePostings acc inc = acc ++ inc :=
  foldl_upsert_append (fun p o => o.getD [] ++ p.2) (fun _ _ => rfl) hdisj hnd

theorem mergePostings_nil {inc : Postings} (hnd : NodupKeys inc) :
    mergePostings [] inc = inc := by
  rw [mergePostings_of_disjoint (by simp [keysOf]) hnd]
  simp

theorem nodupKeys_mergePostings :
    ∀ (inc acc : Postings), NodupKeys acc → NodupKeys (mergePostings acc inc) := by
  intro inc
  induction inc with
  | nil => intro acc h; exact h
  | cons p rest ih =>
    intro acc h
    exact ih _ (nodupKeys_upsert _ _ h)

theorem wfInv_mergeInv : ∀ (inc acc : Inv), WFInv acc → WFInv (mergeInv acc inc) := by
  intro inc
  induction inc with
  | nil => intro acc h; exact h
  | cons tp rest ih =>
    intro acc h
    apply ih
    refine ⟨nodupKeys_upsert _ _ h.1, ?_⟩
    apply values_upsert _ _ h.2
    · exact nodupKeys_mergePostings _ _ nodupKeys_nil
    · intro v hv
      exact nodupKeys_mergePostings _ _ hv

theorem mergeInv_of_disjoint {acc inc : Inv}
    (hdisj : ∀ k ∈ keysOf inc, k ∉ keysOf acc) (hnd : NodupKeys inc)
    (hinner : ∀ p ∈ inc, NodupKeys p.2) :
    mergeInv acc inc = acc ++ inc :=
  foldl_upsert_append (fun p o => mergePostings (o.getD []) p.2)
    (fun p hp => mergePostings_nil (hinner p hp)) hdisj hnd

theorem mergeInv_nil {inc : Inv} (h : WFInv inc) : mergeInv [] inc = inc := by
  rw [mergeInv_of_disjoint (by simp [keysOf]) h.1 h.2]
  simp

theorem dictUpdate_of_disjoint {α : Type} {acc inc : List (String × α)}
    (hdisj : ∀ k ∈ keysOf inc, k ∉ keysOf acc) (hnd : NodupKeys inc) :
    dictUpdate acc inc = acc ++ inc :=
  foldl_upsert_append (fun p _ => p.2) (fun _ _ => rfl) hdisj hnd

theorem dictUpdate_nil {α : Type} {inc : List (String × α)} (hnd : NodupKeys inc) :
    dictUpdate [] inc = inc := by
  rw [dictUpdate_of_disjoint (by simp [keysOf]) hnd]
  simp

theorem mergerStoreMerge_of_disjoint {acc inc : Store}
    (hdisj : ∀ k ∈ keysOf inc, k ∉ keysOf acc) (hnd : NodupKeys inc) :
    mergerStoreMerge acc inc = acc ++ inc := by
  unfold mergerStoreMerge
  exact foldl_upsert_append _ (fun _ _ => rfl) hdisj hnd

theorem nodupKeys_dictUpdate {α : Type} :
    ∀ (inc acc : List (String × α)), NodupKeys acc → NodupKeys (dictUpdate acc inc) := by
  intro inc
  induction inc with
  | nil => intro acc h; exact h
  | cons p rest ih =>
    intro acc h
    exact ih _ (nodupKeys_upsert _ _ h)

theorem wfInv_readerFold :
    ∀ (segs : List Segment) (acc : Inv), WFInv acc →
      WFInv (segs.foldl (fun a s => mergeInv a s.inv) acc) := by
  intro segs
  induction segs with
  | nil => intro acc h; exact h
  | cons s rest ih =>
    intro acc h
    exact ih _ (wfInv_mergeInv _ _ h)

theorem wfInv_mkReader (segs : List Segment) : WFInv (mkReader segs).inv :=
  wfInv_readerFold segs [] ⟨nodupKeys_nil, by simp⟩

theorem nodupKeys_readerStoreFold :
    ∀ (segs : List Segment) (acc : Store), NodupKeys acc →
      NodupKeys (segs.foldl (fun a s => dictUpdate a s.store) acc) := by
  intro segs
  induction segs with
  | nil => intro acc h; exact h
  | cons s rest ih =>
    intro acc h
    exact ih _ (nodupKeys_dictUpdate _ _ h)

theorem nodupKeys_mkReader_store (segs : List Segment) :
    NodupKeys (mkReader segs).store :=
  nodupKeys_readerStoreFold segs [] nodupKeys_nil

theorem mkReader_single (seg : Segment) (hinv : WFInv seg.inv)
    (hstore : NodupKeys seg.store) :
    mkReader [seg] = ⟨seg.inv, seg.store⟩ := by
  unfold mkReader
  simp only [List.foldl_cons, List.foldl_nil]
  congr 1
  · exact mergeInv_nil hinv
  · exact dictUpdate_nil hstore

/-! ## Helpers for the posting-shape claims -/

theorem alookup_termsDocs (inv : Inv) (store : Store) (t d : String) :
    alookup d ((Reader.termsDocs ⟨inv, store⟩ t)) = postingOf inv t d := by
  unfold Reader.termsDocs postingOf
  cases alookup t inv <;> simp [alookup]

theorem storedFold_id (d : String) :
    ∀ (fields : List Field) (inv : Inv),
      (∀ f ∈ fields, f.fieldType = FieldType.STORED) →
      fields.foldl (indexField d) inv = inv := by
  intro fields
  induction fields with
  | nil => intro inv _; rfl
  | cons f fs ih =>
    intro inv h
    rw [List.foldl_cons]
    rw [show indexField d inv f = inv by simp [indexField, h f (by simp)]]
    exact ih inv (fun g hg => h g (List.mem_cons_of_mem _ hg))

theorem fieldsFold_single (d : String) :
    ∀ (fields : List Field) (inv : Inv),
      (fields.countP (fun f => !(f.fieldType = FieldType.STORED))) ≤ 1 →
      (fields.foldl (indexField d) inv = inv ∨
        ∃ f ∈ fields, fields.foldl (indexField d) inv = indexField d inv f) := by
  intro fields
  induction fields with
  | nil => intro inv _; exact Or.inl rfl
  | cons f fs ih =>
    intro inv hcount
    rw [List.foldl_cons]
    by_cases hst : f.fieldType = FieldType.STORED
    · rw [show indexField d inv f = inv by simp [indexField, hst]]
      rcases ih inv (by simpa [List.countP_cons, hst] using hcount) with h | ⟨g, hg, heq⟩
      · exact Or.inl h
      · exact Or.inr ⟨g, List.mem_cons_of_mem _ hg, heq⟩
    · have hz : fs.countP (fun f => !(f.fieldType = FieldType.STORED)) = 0 := by
        have h2 : fs.countP (fun f => !(f.fieldType = FieldType.STORED)) + 1 ≤ 1 := by
          simpa [List.countP_cons, hst] using hcount
        omega
      have hall : ∀ g ∈ fs, g.fieldType = FieldType.STORED := by
        intro g hg
        by_contra hgn
        have := List.countP_pos_iff (p := fun f => !(f.fieldType = FieldType.STORED))
          (l := fs) |>.mpr ⟨g, hg, by simpa using hgn⟩
        omega
      rw [storedFold_id d fs _ hall]
      exact Or.inr ⟨f, by simp, rfl⟩

theorem chain_le_of_all_zero {l : List Nat} (h : ∀ x ∈ l, x = 0) :
    List.Chain' (· ≤ ·) l := by
  induction l with
  | nil => simp
  | cons a rest ih =>
    refine List.chain'_cons'.mpr ⟨?_, ih (fun x hx => h x (List.mem_cons_of_mem _ hx))⟩
    intro y hy
    rw [h a (by simp)]
    omega

theorem keywordFold_zero (d : String) :
    ∀ (fields : List Field), (∀ f ∈ fields, f.fieldType ≠ FieldType.TEXT) →
      ∀ (inv : Inv),
        (∀ t l, postingOf inv t d = some l → l ≠ [] ∧ ∀ x ∈ l, x = 0) →
        (∀ t l, postingOf (fields.foldl (indexField d) inv) t d = some l →
          l ≠ [] ∧ ∀ x ∈ l, x = 0) := by
  intro fields
  induction fields with
  | nil => intro _ inv h; exact h
  | cons f fs ih =>
    intro hnt inv h
    rw [List.foldl_cons]
    apply ih (fun g hg => hnt g (List.mem_cons_of_mem _ hg))
    intro t l hl
    cases hft : f.fieldType with
    | TEXT => exact absurd hft (hnt f (by simp))
    | STORED =>
      rw [show indexField d inv f = inv by simp [indexField, hft]] at hl
      exact h t l hl
    | KEYWORD =>
      rw [show indexField d inv f = postTerm inv (lowerStr f.value) d 0 by
        simp [indexField, hft]] at hl
      by_cases ht : lowerStr f.value = t
      · subst ht
        rw [postingOf_postTerm_self] at hl
        have hl2 : (postingOf inv (lowerStr f.value) d).getD [] ++ [0] = l :=
          Option.some.inj hl
        subst hl2
        refine ⟨by simp, ?_⟩
        intro x hx
        rcases List.mem_append.mp hx with hx | hx
        · cases hp : postingOf inv (lowerStr f.value) d with
          | none => rw [hp] at hx; simp at hx
          | some l0 =>
            rw [hp] at hx
            exact (h _ l0 hp).2 x (by simpa using hx)
        · simpa using hx
      · rw [postingOf_postTerm_ne _ _ (Or.inl ht)] at hl
        exact h t l hl

theorem docCount_fold :
    ∀ (docs : List Document) (st : WriterState),
      (docs.foldl addDocument st).docCount = st.docCount + docs.length := by
  intro docs
  induction docs with
  | nil => intro st; simp
  | cons doc rest ih =>
    intro st
    rw [List.foldl_cons, ih]
    show st.docCount + 1 + rest.length = _
    simp [List.length_cons]
    omega

theorem c3_fold_invariant :
    ∀ (docs : List Document) (st : WriterState) (seen : List String),
      (∀ t d l, postingOf st.inv t d = some l →
        l ≠ [] ∧ List.Chain' (· ≤ ·) l ∧ d ∈ seen) →
      (∀ doc ∈ docs, DocShapeOK doc) →
      (∀ doc ∈ docs, doc.docId ∉ seen) →
      (docs.map Document.docId).Nodup →
      ∀ t d l, postingOf ((docs.foldl addDocument st).inv) t d = some l →
        l ≠ [] ∧ List.Chain' (· ≤ ·) l ∧ d ∈ seen ++ docs.map Document.docId := by
  intro docs
  induction docs with
  | nil =>
    intro st seen hInv _ _ _ t d l hl
    have h := hInv t d l hl
    exact ⟨h.1, h.2.1, by simpa using h.2.2⟩
  | cons doc rest ih =>
    intro st seen hInv hshape hseen hnodup t d l hl
    rw [List.foldl_cons] at hl
    have hdocid : doc.docId ∉ seen := hseen doc (List.mem_cons_self _ _)
    have hInvStep : ∀ t d l, postingOf (addDocument st doc).inv t d = some l →
        l ≠ [] ∧ List.Chain' (· ≤ ·) l ∧ d ∈ seen ++ [doc.docId] := by
      intro t2 d2 l2 hl2
      rw [show (addDocument st doc).inv = doc.fields.foldl (indexField doc.docId) st.inv
        from rfl] at hl2
      by_cases hd : d2 = doc.docId
      · subst hd
        have hPriorNone : ∀ t3 l3, postingOf st.inv t3 doc.docId = some l3 → False := by
          intro t3 l3 hp
          exact hdocid ((hInv t3 doc.docId l3 hp).2.2)
        rcases hshape doc (List.mem_cons_self _ _) with hcnt | hnoText
        · rcases fieldsFold_single doc.docId doc.fields st.inv hcnt with heq | ⟨f, _, heq⟩
          · rw [heq] at hl2
            exact absurd hl2 (fun hh => hPriorNone t2 l2 hh)
          · rw [heq] at hl2
            cases hft : f.fieldType with
            | TEXT =>
              rw [show indexField doc.docId st.inv f =
                  postText st.inv doc.docId (analyze f.value) 0 by
                simp [indexField, hft]] at hl2
              rw [postingOf_postText_self] at hl2
              by_cases hocc : occPositions t2 (analyze f.value) 0 = []
              · rw [if_pos hocc] at hl2
                exact absurd hl2 (fun hh => hPriorNone t2 l2 hh)
              · rw [if_neg hocc] at hl2
                cases hp : postingOf st.inv t2 doc.docId with
                | some l3 => exact absurd hp (fun hh => hPriorNone t2 l3 hh)
                | none =>
                  rw [hp] at hl2
                  have hl3 : occPositions t2 (analyze f.value) 0 = l2 := by
                    simpa using Option.some.inj hl2
                  subst hl3
                  exact ⟨hocc, (occPositions_chain _ _ _).imp (fun a b hab => le_of_lt hab),
                    by simp⟩
            | KEYWORD =>
              rw [show indexField doc.docId st.inv f =
                  postTerm st.inv (lowerStr f.value) doc.docId 0 by
                simp [indexField, hft]] at hl2
              by_cases ht : lowerStr f.value = t2
              · subst ht
                rw [postingOf_postTerm_self] at hl2
                cases hp : postingOf st.inv (lowerStr f.value) doc.docId with
                | some l3 => exact absurd hp (fun hh => hPriorNone _ l3 hh)
                | none =>
                  rw [hp] at hl2
                  have hl3 : [0] = l2 := by simpa using Option.some.inj hl2
                  subst hl3
                  exact ⟨by simp, by simp, by simp⟩
              · rw [postingOf_postTerm_ne _ _ (Or.inl ht)] at hl2
                exact absurd hl2 (fun hh => hPriorNone t2 l2 hh)
            | STORED =>
              rw [show indexField doc.docId st.inv f = st.inv by
                simp [indexField, hft]] at hl2
              exact absurd hl2 (fun hh => hPriorNone t2 l2 hh)
        · have h0 : ∀ t3 l3, postingOf st.inv t3 doc.docId = some l3 →
              l3 ≠ [] ∧ ∀ x ∈ l3, x = 0 :=
            fun t3 l3 hp => absurd hp (fun hh => hPriorNone t3 l3 hh)
          have hres := keywordFold_zero doc.docId doc.fields hnoText st.inv h0 t2 l2 hl2
          exact ⟨hres.1, chain_le_of_all_zero hres.2, by simp⟩
      · rw [postingOf_fieldsFold_ne hd] at hl2
        have h := hInv t2 d2 l2 hl2
        exact ⟨h.1, h.2.1, List.mem_append_left _ h.2.2⟩
    have hmapnodup : (∀ x ∈ rest, ¬ x.docId = doc.docId) ∧
        (List.map Document.docId rest).Nodup := by simpa using hnodup
    have hres := ih (addDocument st doc) (seen ++ [doc.docId]) hInvStep
      (fun x hx => hshape x (List.mem_cons_of_mem _ hx))
      (fun x hx => by
        intro hmem
        rcases List.mem_append.mp hmem with hc | hc
        · exact hseen x (List.mem_cons_of_mem _ hx) hc
        · rw [List.mem_singleton] at hc
          exact hmapnodup.1 x hx hc)
      hmapnodup.2
      t d l hl
    refine ⟨hres.1, hres.2.1, ?_⟩
    have := hres.2.2
    simpa [List.append_assoc] using this

/-- C3 (amended): for every sequence of `add_document` calls with pairwise
distinct doc_ids in which each document has at most one indexed (non-STORED)
field or no TEXT field at all, every `(term, doc_id)` posting list in the
flushed segment is non-empty and sorted in ascending (non-decreasing) order
of position. -/
theorem committed_posting_lists_sorted (docs : List Document)
    (hshape : ∀ doc ∈ docs, DocShapeOK doc)
    (hids : (docs.map Document.docId).Nodup) :
    ∀ t d l,
      postingOf ((commit (docs.foldl addDocument (openWriter []))).1).inv t d = some l →
      l ≠ [] ∧ List.Chain' (· ≤ ·) l := by
  intro t d l hl
  have hl2 : postingOf ((docs.foldl addDocument (openWriter [])).inv) t d = some l := hl
  have h := c3_fold_invariant docs (openWriter []) []
    (fun t3 d3 l3 hp => by simp [postingOf, alookup, openWriter] at hp)
    hshape (by simp) hids t d l hl2
  exact ⟨h.1, h.2.1⟩

/-- C3 counterexample: one `add_document` call with two TEXT fields
(`"b x"` then `"x"`) followed by a commit flushes the posting list `[1, 0]`
for `(term "x", doc "1")`, which is not sorted in ascending order. -/
theorem committed_posting_list_unsorted_cex :
    postingOf ((commit (addDocument (openWriter [])
        ⟨"1", [⟨"f1", "b x", FieldType.TEXT⟩, ⟨"f2", "x", FieldType.TEXT⟩]⟩)).1).inv
      "x" "1" = some [1, 0] ∧
    ¬ List.Chain' (· ≤ ·) ([1, 0] : List Nat) := by
  constructor
  · decide
  · intro h
    have h2 := (List.chain'_cons.mp h).1
    omega

/-- Witness for the amended C3 at a concrete input. -/
theorem committed_posting_lists_sorted_witness :
    ([0, 2] : List Nat) ≠ [] ∧ List.Chain' (· ≤ ·) ([0, 2] : List Nat) :=
  committed_posting_lists_sorted
    [⟨"1", [⟨"content", "one two one", FieldType.TEXT⟩]⟩]
    (by decide) (by decide) "one" "1" [0, 2] (by decide)

/-- C2 (amended): for a committed document with a single TEXT field (among
documents with distinct doc_ids), `reader.terms_docs(t)[doc_id]` is the
non-empty, strictly ascending list of 0-based positions at which `t` occurs
in the analyzed token stream of that field; in particular indexing doc `"1"`
with text `"one two one two one"` gives `terms_docs("one") == {"1": [0, 2, 4]}`. -/
theorem terms_docs_positions_single_text :
    (∀ (docs : List Document), (docs.map Document.docId).Nodup →
      ∀ D ∈ docs, ∀ nm v, D.fields = [⟨nm, v, FieldType.TEXT⟩] →
        ∀ t ∈ analyze v,
          alookup D.docId
              ((mkReader [(commit (docs.foldl addDocument (openWriter []))).1]).termsDocs t) =
            some (occPositions t (analyze v) 0) ∧
          occPositions t (analyze v) 0 ≠ [] ∧
          List.Chain' (· < ·) (occPositions t (analyze v) 0)) ∧
    (mkReader [(commit (addDocument (openWriter [])
        ⟨"1", [⟨"content", "one two one two one", FieldType.TEXT⟩]⟩)).1]).termsDocs "one" =
      [("1", [0, 2, 4])] := by
  constructor
  · intro docs hids D hD nm v hfields t ht
    have hwf : WFInv ((commit (docs.foldl addDocument (openWriter []))).1).inv :=
      wfInv_docsFold docs (openWriter []) ⟨nodupKeys_nil, by simp [openWriter]⟩
    have hstore : NodupKeys ((commit (docs.foldl addDocument (openWriter []))).1).store :=
      nodupKeys_storeFold docs (openWriter []) nodupKeys_nil
    rw [mkReader_single _ hwf hstore]
    rw [alookup_termsDocs]
    obtain ⟨pre, post, rfl⟩ := List.append_of_mem hD
    have hmap := hids
    rw [List.map_append, List.map_cons] at hmap
    obtain ⟨hnd1, hnd2, hdisj⟩ := List.nodup_append.mp hmap
    have hpostne : ∀ doc ∈ post, doc.docId ≠ D.docId := by
      intro x hx hh
      exact (List.nodup_cons.mp hnd2).1 (hh ▸ List.mem_map_of_mem Document.docId hx)
    have hprene : ∀ doc ∈ pre, doc.docId ≠ D.docId := by
      intro x hx hh
      exact hdisj (List.mem_map_of_mem Document.docId hx) (by simp [hh])
    show postingOf (((pre ++ D :: post).foldl addDocument (openWriter [])).inv) t D.docId = _ ∧ _
    rw [List.foldl_append, List.foldl_cons]
    rw [postingOf_docsFold_ne t post _ hpostne]
    rw [show (addDocument (pre.foldl addDocument (openWriter [])) D).inv =
        D.fields.foldl (indexField D.docId) (pre.foldl addDocument (openWriter [])).inv
      from rfl]
    rw [hfields]
    rw [List.foldl_cons, List.foldl_nil]
    rw [show indexField D.docId (pre.foldl addDocument (openWriter [])).inv
          ⟨nm, v, FieldType.TEXT⟩ =
        postText (pre.foldl addDocument (openWriter [])).inv D.docId (analyze v) 0 by
      simp [indexField]]
    rw [postingOf_postText_self]
    have hPriorNone : postingOf ((pre.foldl addDocument (openWriter [])).inv) t D.docId = none := by
      rw [postingOf_docsFold_ne t pre _ hprene]
      simp [postingOf, alookup, openWriter]
    rw [hPriorNone]
    have hocc : occPositions t (analyze v) 0 ≠ [] := occPositions_ne_nil t (analyze v) 0 ht
    rw [if_neg hocc]
    exact ⟨by simp, hocc, occPositions_chain t (analyze v) 0⟩
  · decide

/-- C2 counterexample: for a document whose fields are all TEXT but number
two (`"b x"` then `"x"`), the reader returns the posting list `[1, 0]` for
term `"x"`: not ascending, hence not the occurrence-position list of any
analyzed token stream. -/
theorem terms_docs_positions_cex :
    alookup "1"
        ((mkReader [(commit (addDocument (openWriter [])
          ⟨"1", [⟨"f1", "b x", FieldType.TEXT⟩, ⟨"f2", "x", FieldType.TEXT⟩]⟩)).1]).termsDocs
          "x") = some [1, 0] ∧
    ¬ List.Chain' (· < ·) ([1, 0] : List Nat) := by
  constructor
  · decide
  · intro h
    have h2 := (List.chain'_cons.mp h).1
    omega

/-- Witness for the amended C2 at a concrete input. -/
theorem terms_docs_positions_single_text_witness :
    alookup "1"
        ((mkReader [(commit ([(⟨"1", [⟨"content", "one two one", FieldType.TEXT⟩]⟩ :
          Document)].foldl addDocument (openWriter []))).1]).termsDocs "one") =
      some (occPositions "one" (analyze "one two one") 0) ∧
    occPositions "one" (analyze "one two one") 0 ≠ [] ∧
    List.Chain' (· < ·) (occPositions "one" (analyze "one two one") 0) :=
  terms_docs_positions_single_text.1
    [⟨"1", [⟨"content", "one two one", FieldType.TEXT⟩]⟩] (by decide)
    ⟨"1", [⟨"content", "one two one", FieldType.TEXT⟩]⟩ (by decide)
    "content" "one two one" rfl "one" (by decide)

/-- C10: the writer's buffered `doc_count` counts `add_document` calls, not
distinct doc_ids: adding the same doc_id twice and committing stores one
document but records `doc_count = 2` in the manifest, exceeding the Reader's
`total_doc_count` of 1. -/
theorem doc_count_counts_calls :
    (∀ (docs : List Document) (m : List ManifestEntry),
      (docs.foldl addDocument (openWriter m)).docCount = docs.length) ∧
    ((commit (addDocument (addDocument (openWriter [])
        ⟨"1", [⟨"a", "x", FieldType.STORED⟩]⟩)
        ⟨"1", [⟨"b", "y", FieldType.STORED⟩]⟩)).2.manifest =
      [⟨"segment_000", 2⟩] ∧
     (commit (addDocument (addDocument (openWriter [])
        ⟨"1", [⟨"a", "x", FieldType.STORED⟩]⟩)
        ⟨"1", [⟨"b", "y", FieldType.STORED⟩]⟩)).1.store.length = 1 ∧
     (mkReader [(commit (addDocument (addDocument (openWriter [])
        ⟨"1", [⟨"a", "x", FieldType.STORED⟩]⟩)
        ⟨"1", [⟨"b", "y", FieldType.STORED⟩]⟩)).1]).totalDocCount = 1) := by
  refine ⟨?_, by decide, by decide, by decide⟩
  intro docs m
  rw [docCount_fold]
  simp [openWriter]

/-! ## Searcher lemmas -/

theorem normalizeQuery_fold (terms : List String) :
    ∀ (acc : List String),
      terms.foldl (fun acc t => acc ++ analyze t) acc = acc ++ normalizeQuery terms := by
  induction terms with
  | nil => intro acc; simp [normalizeQuery]
  | cons t ts ih =>
    intro acc
    rw [List.foldl_cons, ih]
    rw [show normalizeQuery (t :: ts) = [] ++ analyze t ++ normalizeQuery ts by
      rw [show normalizeQuery (t :: ts) = ts.foldl (fun acc t => acc ++ analyze t)
          ([] ++ analyze t) from rfl]
      rw [ih]]
    simp

theorem normalizeQuery_cons (t : String) (ts : List String) :
    normalizeQuery (t :: ts) = analyze t ++ normalizeQuery ts := by
  rw [show normalizeQuery (t :: ts) = ts.foldl (fun acc t => acc ++ analyze t)
      ([] ++ analyze t) from rfl]
  rw [normalizeQuery_fold]
  simp

theorem normalizeQuery_append (ts1 ts2 : List String) :
    normalizeQuery (ts1 ++ ts2) = normalizeQuery ts1 ++ normalizeQuery ts2 := by
  show (ts1 ++ ts2).foldl (fun acc t => acc ++ analyze t) [] = _
  rw [List.foldl_append]
  rw [normalizeQuery_fold ts2]
  rfl

theorem containsKey_upsert {κ : Type} [DecidableEq κ] {α : Type}
    (k d : κ) (f : Option α → α) (l : List (κ × α)) :
    containsKey d (upsert k f l) = (containsKey d l || decide (k = d)) := by
  by_cases hkd : k = d
  · subst hkd
    simp [containsKey, alookup_upsert_self]
  · simp [containsKey, alookup_upsert_ne (fun hh => hkd hh.symm), hkd]

theorem containsKey_nil {κ : Type} [DecidableEq κ] {α : Type} (d : κ) :
    containsKey d ([] : List (κ × α)) = false := rfl

theorem containsKey_foldl_upsert {κ : Type} [DecidableEq κ] {α β : Type}
    (g : κ × β → Option α → α) :
    ∀ (inc : List (κ × β)) (acc : List (κ × α)) (d : κ),
      containsKey d (inc.foldl (fun a p => upsert p.1 (g p) a) acc) =
        (containsKey d acc || containsKey d inc) := by
  intro inc
  induction inc with
  | nil => intro acc d; simp [containsKey, alookup]
  | cons p rest ih =>
    intro acc d
    obtain ⟨k, v⟩ := p
    rw [List.foldl_cons, ih]
    rw [containsKey_upsert]
    rw [show containsKey d ((k, v) :: rest) = (decide (k = d) || containsKey d rest) by
      by_cases hkd : k = d
      · simp [containsKey, alookup, hkd]
      · simp [containsKey, alookup, hkd]]
    cases containsKey d acc <;> cases containsKey d rest <;> cases decide (k = d) <;> simp

theorem nodupKeys_foldl_upsert {κ : Type} [DecidableEq κ] {α β : Type}
    (g : κ × β → Option α → α) :
    ∀ (inc : List (κ × β)) (acc : List (κ × α)), NodupKeys acc →
      NodupKeys (inc.foldl (fun a p => upsert p.1 (g p) a) acc) := by
  intro inc
  induction inc with
  | nil => intro acc h; exact h
  | cons p rest ih =>
    intro acc h
    exact ih _ (nodupKeys_upsert _ _ h)

theorem scoreStep_empty {r : Reader} {term : String}
    (he : r.termsDocs term = []) (scores : List (String × ℚ)) :
    scoreStep r scores term = scores := by
  simp [scoreStep, he]

theorem scoreStep_fold {r : Reader} {term : String}
    (he : ¬ r.termsDocs term = []) (scores : List (String × ℚ)) :
    scoreStep r scores term =
      (r.termsDocs term).foldl
        (fun sc p => upsert p.1 (fun o => o.getD 0 + (p.2.length : ℚ) * idfImpl r term) sc)
        scores := by
  simp [scoreStep, he, idfImpl]

theorem containsKey_scoreStep (r : Reader) (scores : List (String × ℚ))
    (term : String) (d : String) :
    containsKey d (scoreStep r scores term) =
      (containsKey d scores || containsKey d (r.termsDocs term)) := by
  by_cases he : r.termsDocs term = []
  · rw [scoreStep_empty he, he, containsKey_nil]
    simp
  · rw [scoreStep_fold he]
    exact containsKey_foldl_upsert _ _ _ _

theorem containsKey_scoresAccum (r : Reader) :
    ∀ (ts : List String) (scores : List (String × ℚ)) (d : String),
      containsKey d (ts.foldl (scoreStep r) scores) =
        (containsKey d scores || ts.any (fun t => containsKey d (r.termsDocs t))) := by
  intro ts
  induction ts with
  | nil => intro scores d; simp
  | cons t rest ih =>
    intro scores d
    rw [List.foldl_cons, ih, containsKey_scoreStep, List.any_cons]
    cases containsKey d scores <;>
      cases containsKey d (r.termsDocs t) <;>
      cases rest.any (fun t => containsKey d (r.termsDocs t)) <;> simp

theorem nodupKeys_scoreStep (r : Reader) (term : String)
    {scores : List (String × ℚ)} (h : NodupKeys scores) :
    NodupKeys (scoreStep r scores term) := by
  by_cases he : r.termsDocs term = []
  · rw [scoreStep_empty he]; exact h
  · rw [scoreStep_fold he]
    exact nodupKeys_foldl_upsert _ _ _ h

theorem nodupKeys_scoresAccum (r : Reader) :
    ∀ (ts : List String) (scores : List (String × ℚ)), NodupKeys scores →
      NodupKeys (ts.foldl (scoreStep r) scores) := by
  intro ts
  induction ts with
  | nil => intro scores h; exact h
  | cons t rest ih =>
    intro scores h
    exact ih _ (nodupKeys_scoreStep r t h)

theorem containsKey_iff_exists_mem {κ : Type} [DecidableEq κ] {α : Type}
    (d : κ) (l : List (κ × α)) :
    containsKey d l = true ↔ ∃ v, (d, v) ∈ l := by
  constructor
  · intro h
    rw [containsKey, Option.isSome_iff_exists] at h
    obtain ⟨v, hv⟩ := h
    exact ⟨v, mem_of_alookup_eq_some hv⟩
  · rintro ⟨v, hv⟩
    induction l with
    | nil => simp at hv
    | cons p rest ih =>
      obtain ⟨k, w⟩ := p
      rcases List.mem_cons.mp hv with hp | hp
      · cases hp
        simp [containsKey, alookup]
      · by_cases hkd : k = d
        · simp [containsKey, alookup, hkd]
        · rw [show containsKey d ((k, w) :: rest) = containsKey d rest by
            simp [containsKey, alookup, hkd]]
          exact ih hp

theorem mem_insertByScore (x y : String × ℚ) :
    ∀ (l : List (String × ℚ)), (y ∈ insertByScore x l ↔ y = x ∨ y ∈ l) := by
  intro l
  induction l with
  | nil => simp [insertByScore]
  | cons z zs ih =>
    unfold insertByScore
    by_cases h : z.2 ≤ x.2
    · rw [if_pos h]
      simp
    · rw [if_neg h]
      simp only [List.mem_cons, ih]
      tauto

theorem mem_sortByScoreDesc (y : String × ℚ) :
    ∀ (l : List (String × ℚ)), (y ∈ sortByScoreDesc l ↔ y ∈ l) := by
  intro l
  induction l with
  | nil => simp [sortByScoreDesc]
  | cons x xs ih =>
    unfold sortByScoreDesc
    rw [List.foldr_cons]
    rw [mem_insertByScore]
    rw [show xs.foldr insertByScore [] = sortByScoreDesc xs from rfl]
    rw [ih]
    simp

theorem mem_map_fst_sort (X : List (String × ℚ)) (d : String) :
    d ∈ (sortByScoreDesc X).map Prod.fst ↔ ∃ v, (d, v) ∈ X := by
  rw [List.mem_map]
  constructor
  · rintro ⟨p, hp, rfl⟩
    exact ⟨p.2, (mem_sortByScoreDesc p X).mp hp⟩
  · rintro ⟨v, hv⟩
    exact ⟨(d, v), (mem_sortByScoreDesc _ X).mpr hv, rfl⟩

theorem mem_search_iff (r : Reader) (q : Query) (d : String) :
    d ∈ search r q ↔
      ((∃ t ∈ normalizeQuery q.terms, containsKey d (r.termsDocs t) = true) ∧
        (q.operator = "AND" → ∀ t ∈ normalizeQuery q.terms,
          containsKey d (r.termsDocs t) = true)) := by
  unfold search searchWithScores
  by_cases hts : (normalizeQuery q.terms).isEmpty = true
  · rw [List.isEmpty_iff] at hts
    simp [hts]
  · rw [if_neg hts]
    rw [mem_map_fst_sort]
    have htne : normalizeQuery q.terms ≠ [] := by
      intro hh
      exact hts (by simp [hh])
    by_cases hop : q.operator = "AND"
    · rw [if_pos hop]
      constructor
      · rintro ⟨v, hv⟩
        rw [andFilter, List.mem_filter] at hv
        obtain ⟨hmem, hpred⟩ := hv
        have hall : ∀ t ∈ normalizeQuery q.terms, containsKey d (r.termsDocs t) = true :=
          fun t ht => List.all_eq_true.mp hpred t ht
        obtain ⟨t0, ht0⟩ := List.exists_mem_of_ne_nil _ htne
        exact ⟨⟨t0, ht0, hall t0 ht0⟩, fun _ => hall⟩
      · rintro ⟨⟨t0, ht0, hct0⟩, hand⟩
        have hall := hand hop
        have hc : containsKey d ((normalizeQuery q.terms).foldl (scoreStep r) []) = true := by
          rw [containsKey_scoresAccum, containsKey_nil, Bool.false_or, List.any_eq_true]
          exact ⟨t0, ht0, hct0⟩
        obtain ⟨v, hv⟩ := (containsKey_iff_exists_mem _ _).mp hc
        refine ⟨v, ?_⟩
        rw [andFilter, List.mem_filter]
        exact ⟨hv, List.all_eq_true.mpr (fun t ht => hall t ht)⟩
    · rw [if_neg hop]
      constructor
      · rintro ⟨v, hv⟩
        have hc : containsKey d ((normalizeQuery q.terms).foldl (scoreStep r) []) = true :=
          (containsKey_iff_exists_mem _ _).mpr ⟨v, hv⟩
        rw [containsKey_scoresAccum, containsKey_nil, Bool.false_or,
          List.any_eq_true] at hc
        exact ⟨hc, fun hcontra => absurd hcontra hop⟩
      · rintro ⟨⟨t0, ht0, hct0⟩, _⟩
        have hc : containsKey d ((normalizeQuery q.terms).foldl (scoreStep r) []) = true := by
          rw [containsKey_scoresAccum, containsKey_nil, Bool.false_or, List.any_eq_true]
          exact ⟨t0, ht0, hct0⟩
        exact (containsKey_iff_exists_mem _ _).mp hc

/-- C5: with the operator compared case-insensitively, an AND query returns
exactly those accumulated doc_ids whose posting lists contain every
normalized query term, and any operator other than AND behaves as OR,
keeping all accumulated doc_ids. -/
theorem search_operator_semantics (r : Reader) (terms : List String)
    (op : String) (d : String) :
    d ∈ search r (mkQuery terms op) ↔
      ((∃ t ∈ normalizeQuery terms, containsKey d (r.termsDocs t) = true) ∧
        (upperStr op = "AND" → ∀ t ∈ normalizeQuery terms,
          containsKey d (r.termsDocs t) = true)) :=
  mem_search_iff r (mkQuery terms op) d

/-- C7: adding a raw term to an OR query never shrinks the result set. -/
theorem or_query_monotone (r : Reader) (terms : List String) (t : String)
    (d : String) (h : d ∈ search r (mkQuery terms "OR")) :
    d ∈ search r (mkQuery (terms ++ [t]) "OR") := by
  rw [mem_search_iff] at h ⊢
  obtain ⟨⟨u, hu, hcu⟩, _⟩ := h
  constructor
  · refine ⟨u, ?_, hcu⟩
    show u ∈ normalizeQuery (terms ++ [t])
    rw [normalizeQuery_append]
    exact List.mem_append_left _ hu
  · intro hop
    have hop2 : upperStr "OR" = "AND" := hop
    exact absurd hop2 (by decide)

/-- Witness for C7 at a concrete input. -/
theorem or_query_monotone_witness :
    ("1" ∈ search
      (mkReader [(commit (addDocument (openWriter [])
        ⟨"1", [⟨"content", "Lucene is powerful", FieldType.TEXT⟩]⟩)).1])
      (mkQuery ["lucene"] "OR")) ∧
    ("1" ∈ search
      (mkReader [(commit (addDocument (openWriter [])
        ⟨"1", [⟨"content", "Lucene is powerful", FieldType.TEXT⟩]⟩)).1])
      (mkQuery (["lucene"] ++ ["python"]) "OR")) :=
  ⟨by decide,
   or_query_monotone _ ["lucene"] "python" "1" (by decide)⟩

/-- C8: a query whose terms all normalize to nothing returns an empty result
from both `search_with_scores` and `search`, with no error. -/
theorem empty_normalization_empty_result (r : Reader) (terms : List String)
    (op : String) (h : normalizeQuery terms = []) :
    searchWithScores r (mkQuery terms op) = [] ∧ search r (mkQuery terms op) = [] := by
  unfold search searchWithScores
  rw [show (mkQuery terms op).terms = terms from rfl, h]
  simp

/-- Witness for C8: a stop-word-only query. -/
theorem empty_normalization_empty_result_witness :
    normalizeQuery ["the"] = [] ∧
    searchWithScores (mkReader []) (mkQuery ["the"] "OR") = [] ∧
    search (mkReader []) (mkQuery ["the"] "OR") = [] :=
  ⟨by decide,
   (empty_normalization_empty_result (mkReader []) ["the"] "OR" (by decide)).1,
   (empty_normalization_empty_result (mkReader []) ["the"] "OR" (by decide)).2⟩

/-! ## The score formula (C4) -/

theorem alookup_foldl_upsert_not_mem {κ : Type} [DecidableEq κ] {α β : Type}
    (g : κ × β → Option α → α) :
    ∀ (inc : List (κ × β)) (acc : List (κ × α)) (d : κ), (∀ p ∈ inc, p.1 ≠ d) →
      alookup d (inc.foldl (fun a p => upsert p.1 (g p) a) acc) = alookup d acc := by
  intro inc
  induction inc with
  | nil => intro acc d _; rfl
  | cons p rest ih =>
    intro acc d h
    rw [List.foldl_cons]
    rw [ih _ _ (fun q hq => h q (List.mem_cons_of_mem _ hq))]
    exact alookup_upsert_ne (Ne.symm (h p (List.mem_cons_self _ _))) _ _

theorem alookup_postingsFold (idf : ℚ) :
    ∀ (ps : Postings) (scores : List (String × ℚ)) (d : String), NodupKeys ps →
      alookup d (ps.foldl (fun sc p =>
          upsert p.1 (fun o => o.getD 0 + (p.2.length : ℚ) * idf) sc) scores) =
        (match alookup d ps with
         | some l => some ((alookup d scores).getD 0 + (l.length : ℚ) * idf)
         | none => alookup d scores) := by
  intro ps
  induction ps with
  | nil => intro scores d _; simp [alookup]
  | cons p rest ih =>
    intro scores d hnd
    obtain ⟨k, v⟩ := p
    have hcons := List.nodup_cons.mp (by simpa [NodupKeys, keysOf_cons] using hnd)
    have hndrest : NodupKeys rest := hcons.2
    rw [List.foldl_cons]
    by_cases hkd : k = d
    · subst hkd
      have hrest : ∀ q ∈ rest, q.1 ≠ k := by
        intro q hq hh
        exact hcons.1 (hh ▸ List.mem_map_of_mem Prod.fst hq)
      rw [alookup_foldl_upsert_not_mem _ rest _ k hrest]
      rw [alookup_upsert_self]
      rw [show alookup k ((k, v) :: rest) = some v by simp [alookup]]
    · rw [show alookup d ((k, v) :: rest) = alookup d rest by simp [alookup, hkd]]
      rw [ih _ _ hndrest]
      rw [alookup_upsert_ne (fun hh => hkd hh.symm)]

theorem alookup_scoreStep (r : Reader) (scores : List (String × ℚ))
    (t d : String) (hnd : NodupKeys (r.termsDocs t)) :
    alookup d (scoreStep r scores t) =
      if containsKey d (r.termsDocs t) = true
      then some ((alookup d scores).getD 0 + contributionImpl r d t)
      else alookup d scores := by
  by_cases he : r.termsDocs t = []
  · rw [scoreStep_empty he]
    rw [show containsKey d (r.termsDocs t) = false by rw [he]; rfl]
    simp
  · rw [scoreStep_fold he]
    rw [alookup_postingsFold _ _ _ _ hnd]
    cases hl : alookup d (r.termsDocs t) with
    | none =>
      rw [show containsKey d (r.termsDocs t) = false by simp [containsKey, hl]]
      simp
    | some l =>
      rw [show containsKey d (r.termsDocs t) = true by simp [containsKey, hl]]
      simp [contributionImpl, containsKey, hl, tfOf]

theorem alookup_scoresAccum (r : Reader) :
    ∀ (ts : List String), (∀ t ∈ ts, NodupKeys (r.termsDocs t)) →
      ∀ (scores : List (String × ℚ)) (d : String),
        alookup d (ts.foldl (scoreStep r) scores) =
          if containsKey d scores = true then
            some ((alookup d scores).getD 0 + (ts.map (contributionImpl r d)).sum)
          else if ts.any (fun t => containsKey d (r.termsDocs t)) = true then
            some ((ts.map (contributionImpl r d)).sum)
          else none := by
  intro ts
  induction ts with
  | nil =>
    intro _ scores d
    cases h : alookup d scores with
    | none => simp [containsKey, h]
    | some a => simp [containsKey, h]
  | cons t rest ih =>
    intro hwf scores d
    rw [List.foldl_cons]
    rw [ih (fun u hu => hwf u (List.mem_cons_of_mem _ hu))]
    rw [containsKey_scoreStep, alookup_scoreStep _ _ _ _ (hwf t (List.mem_cons_self _ _))]
    rw [List.map_cons, List.sum_cons, List.any_cons]
    cases hc1 : containsKey d scores with
    | true =>
      cases hc2 : containsKey d (r.termsDocs t) with
      | true => simp [add_assoc]
      | false =>
        have hcz : contributionImpl r d t = 0 := by
          simp [contributionImpl, hc2]
        simp [hcz]
    | false =>
      cases hc2 : containsKey d (r.termsDocs t) with
      | true =>
        have hnone : alookup d scores = none := by
          cases hl : alookup d scores with
          | none => rfl
          | some a =>
            rw [show containsKey d scores = true by simp [containsKey, hl]] at hc1
            cases hc1
        simp [hnone]
      | false =>
        have hcz : contributionImpl r d t = 0 := by
          simp [contributionImpl, hc2]
        cases hany : rest.any (fun u => containsKey d (r.termsDocs u)) with
        | true => simp [hany, hcz]
        | false => simp [hany]

theorem nodupKeys_termsDocs (segs : List Segment) (t : String) :
    NodupKeys ((mkReader segs).termsDocs t) := by
  have hwf := wfInv_mkReader segs
  unfold Reader.termsDocs
  cases hl : alookup t (mkReader segs).inv with
  | none => exact nodupKeys_nil
  | some ps =>
    exact hwf.2 (t, ps) (mem_of_alookup_eq_some hl)

theorem termDocFreq_eq_distinct (segs : List Segment) (t : String) :
    ((mkReader segs).termDocFreq t : ℚ) =
      (distinctDocCount ((mkReader segs).termsDocs t) : ℚ) := by
  have hwf := wfInv_mkReader segs
  unfold Reader.termDocFreq Reader.termsDocs distinctDocCount
  cases hl : alookup t (mkReader segs).inv with
  | none => simp [keysOf]
  | some ps =>
    have hnd : NodupKeys ps := hwf.2 (t, ps) (mem_of_alookup_eq_some hl)
    unfold NodupKeys at hnd
    simp only [hl, Option.map_some, Option.getD_some, keysOf] at hnd ⊢
    rw [List.Nodup.dedup hnd, List.length_map]
    simp

theorem contributionImpl_eq (segs : List Segment) (d t : String) :
    contributionImpl (mkReader segs) d t = contribution (mkReader segs) d t := by
  unfold contributionImpl contribution idfImpl idfSpec
  rw [termDocFreq_eq_distinct]

/-- C4: for every query with a non-empty normalized term list, every pair
returned by `search_with_scores` carries the score
`Σ_t tf * (1 + (N - df + 0.5)/(df + 0.5))` over the normalized terms with
multiplicity, with `df` the number of distinct doc_ids posting `t`; in
particular the single-document `"Lucene is powerful"` index queried with
`["lucene"]` OR returns `[("1", 1 + 1/3)]`.  (Arithmetic is modelled exactly
over `ℚ`; the engine computes the same formula in doubles.) -/
theorem search_with_scores_formula :
    (∀ (segs : List Segment) (rawTerms : List String) (op : String),
      normalizeQuery rawTerms ≠ [] →
      ∀ p ∈ searchWithScores (mkReader segs) (mkQuery rawTerms op),
        p.2 = scoreSpec (mkReader segs) (normalizeQuery rawTerms) p.1) ∧
    searchWithScores
        (mkReader [(commit (addDocument (openWriter [])
          ⟨"1", [⟨"content", "Lucene is powerful", FieldType.TEXT⟩]⟩)).1])
        (mkQuery ["lucene"] "OR") = [("1", (1 : ℚ) + 1/3)] := by
  constructor
  · intro segs rawTerms op hne p hp
    unfold searchWithScores at hp
    rw [if_neg (by simpa using hne)] at hp
    rw [mem_sortByScoreDesc] at hp
    have hmem : p ∈ (normalizeQuery rawTerms).foldl (scoreStep (mkReader segs)) [] := by
      by_cases hop : (mkQuery rawTerms op).operator = "AND"
      · rw [if_pos hop] at hp
        exact (List.mem_filter.mp hp).1
      · rw [if_neg hop] at hp
        exact hp
    have hnodup : NodupKeys ((normalizeQuery rawTerms).foldl
        (scoreStep (mkReader segs)) []) :=
      nodupKeys_scoresAccum _ _ [] nodupKeys_nil
    have halk : alookup p.1 ((normalizeQuery rawTerms).foldl
        (scoreStep (mkReader segs)) []) = some p.2 :=
      alookup_eq_some_of_mem_nodup hmem hnodup
    rw [alookup_scoresAccum _ _ (fun t _ => nodupKeys_termsDocs segs t)] at halk
    rw [if_neg (by simp [containsKey, alookup])] at halk
    cases hany : (normalizeQuery rawTerms).any
        (fun t => containsKey p.1 ((mkReader segs).termsDocs t)) with
    | false =>
      rw [if_neg (by simp [hany])] at halk
      cases halk
    | true =>
      rw [if_pos hany] at halk
      have hsum := Option.some.inj halk
      rw [← hsum]
      unfold scoreSpec
      congr 1
      exact List.map_congr_left (fun t _ => contributionImpl_eq segs p.1 t)
  · have hstep : searchWithScores
        (mkReader [(commit (addDocument (openWriter [])
          ⟨"1", [⟨"content", "Lucene is powerful", FieldType.TEXT⟩]⟩)).1])
        (mkQuery ["lucene"] "OR") = [("1", (4 : ℚ)/3)] := by
      simp +decide only [searchWithScores, scoreStep, normalizeQuery, mkQuery, mkReader,
        Reader.termsDocs, Reader.termDocFreq, Reader.totalDocCount,
        sortByScoreDesc, insertByScore, andFilter, containsKey, alookup, upsert,
        commit, addDocument, openWriter, indexField, postText, postTerm,
        analyze, tokenize, tokenizeAux, wordChar, lowerStr, upperStr, asciiLower,
        asciiUpper, lowerTable, upperTable, stopwordSet, defaultStopwords,
        mergeInv, mergePostings, dictUpdate, List.foldl, List.foldr, List.filter,
        List.isEmpty, List.map]
      norm_num
    rw [hstep]
    norm_num

/-- Witness for the universal part of C4 at a concrete input. -/
theorem search_with_scores_formula_witness :
    normalizeQuery ["lucene"] ≠ [] ∧
    (("1", (1 : ℚ) + 1/3) :
        String × ℚ).2 =
      scoreSpec
        (mkReader [(commit (addDocument (openWriter [])
          ⟨"1", [⟨"content", "Lucene is powerful", FieldType.TEXT⟩]⟩)).1])
        (normalizeQuery ["lucene"]) ("1", (1 : ℚ) + 1/3).1 := by
  refine ⟨by decide, search_with_scores_formula.1 _ ["lucene"] "OR" (by decide) _ ?_⟩
  rw [search_with_scores_formula.2]
  simp

/-! ## Merge equivalence (C1) -/

theorem readerStore_flatten :
    ∀ (segs : List Segment) (acc : Store),
      (∀ s ∈ segs, NodupKeys s.store) →
      (∀ s ∈ segs, ∀ d ∈ keysOf s.store, d ∉ keysOf acc) →
      List.Pairwise (fun s1 s2 => ∀ d ∈ keysOf s1.store, d ∉ keysOf s2.store) segs →
      segs.foldl (fun a s => dictUpdate a s.store) acc =
        acc ++ (segs.map Segment.store).flatten := by
  intro segs
  induction segs with
  | nil => intro acc _ _ _; simp
  | cons s rest ih =>
    intro acc hnd hdisj hpw
    rw [List.foldl_cons]
    rw [dictUpdate_of_disjoint (hdisj s (List.mem_cons_self _ _))
      (hnd s (List.mem_cons_self _ _))]
    obtain ⟨hhead, htail⟩ := List.pairwise_cons.mp hpw
    rw [ih (acc ++ s.store)
      (fun x hx => hnd x (List.mem_cons_of_mem _ hx))
      (fun x hx d hd => by
        rw [show keysOf (acc ++ s.store) = keysOf acc ++ keysOf s.store by
          simp [keysOf]]
        rw [List.mem_append]
        rintro (hc | hc)
        · exact hdisj x (List.mem_cons_of_mem _ hx) d hd hc
        · exact hhead x hx d hc hd)
      htail]
    simp

theorem mergerStore_flatten :
    ∀ (segs : List Segment) (acc : Store),
      (∀ s ∈ segs, NodupKeys s.store) →
      (∀ s ∈ segs, ∀ d ∈ keysOf s.store, d ∉ keysOf acc) →
      List.Pairwise (fun s1 s2 => ∀ d ∈ keysOf s1.store, d ∉ keysOf s2.store) segs →
      segs.foldl (fun a s => mergerStoreMerge a s.store) acc =
        acc ++ (segs.map Segment.store).flatten := by
  intro segs
  induction segs with
  | nil => intro acc _ _ _; simp
  | cons s rest ih =>
    intro acc hnd hdisj hpw
    rw [List.foldl_cons]
    rw [mergerStoreMerge_of_disjoint (hdisj s (List.mem_cons_self _ _))
      (hnd s (List.mem_cons_self _ _))]
    obtain ⟨hhead, htail⟩ := List.pairwise_cons.mp hpw
    rw [ih (acc ++ s.store)
      (fun x hx => hnd x (List.mem_cons_of_mem _ hx))
      (fun x hx d hd => by
        rw [show keysOf (acc ++ s.store) = keysOf acc ++ keysOf s.store by
          simp [keysOf]]
        rw [List.mem_append]
        rintro (hc | hc)
        · exact hdisj x (List.mem_cons_of_mem _ hx) d hd hc
        · exact hhead x hx d hc hd)
      htail]
    simp

theorem nodupKeys_mergerStoreFold :
    ∀ (segs : List Segment) (acc : Store), NodupKeys acc →
      NodupKeys (segs.foldl (fun a s => mergerStoreMerge a s.store) acc) := by
  intro segs
  induction segs with
  | nil => intro acc h; exact h
  | cons s rest ih =>
    intro acc h
    apply ih
    show NodupKeys (mergerStoreMerge acc s.store)
    unfold mergerStoreMerge
    exact nodupKeys_foldl_upsert _ _ _ h

theorem merge_preserves_reader (segs : List Segment) (h : DisjointStores segs) :
    mkReader (mergeAll segs) = mkReader segs := by
  unfold mergeAll
  by_cases hlen : segs.length ≤ 1
  · rw [if_pos hlen]
  · rw [if_neg hlen]
    have hinv : (mkReader [mergeSegments segs]).inv = (mkReader segs).inv := by
      show mergeInv [] (mergeSegments segs).inv = _
      have hwfm : WFInv (mergeSegments segs).inv :=
        wfInv_readerFold segs [] ⟨nodupKeys_nil, by simp⟩
      rw [mergeInv_nil hwfm]
      rfl
    have hstore : (mkReader [mergeSegments segs]).store = (mkReader segs).store := by
      show dictUpdate [] (mergeSegments segs).store = _
      have hndm : NodupKeys (mergeSegments segs).store :=
        nodupKeys_mergerStoreFold segs [] nodupKeys_nil
      rw [dictUpdate_nil hndm]
      show segs.foldl (fun a s => mergerStoreMerge a s.store) [] =
        segs.foldl (fun a s => dictUpdate a s.store) []
      rw [mergerStore_flatten segs [] h.1 (by simp [keysOf]) h.2]
      rw [readerStore_flatten segs [] h.1 (by simp [keysOf]) h.2]
    calc mkReader [mergeSegments segs]
        = ⟨(mkReader [mergeSegments segs]).inv, (mkReader [mergeSegments segs]).store⟩ :=
          rfl
      _ = ⟨(mkReader segs).inv, (mkReader segs).store⟩ := by rw [hinv, hstore]
      _ = mkReader segs := rfl

/-- C1 (amended): for segments in which no doc_id appears in more than one
segment's document store, running `merge_all` and reopening a Reader
preserves every observation: `terms_docs` for every term, `get_document` for
every doc_id, and hence `search_with_scores` for every query.  (When a
doc_id spans two segments the `get_document` observation changes: see the
counterexample.) -/
theorem merge_all_preserves_observations (segs : List Segment)
    (h : DisjointStores segs) :
    (∀ t, (mkReader (mergeAll segs)).termsDocs t = (mkReader segs).termsDocs t) ∧
    (∀ d, (mkReader (mergeAll segs)).getDocument d = (mkReader segs).getDocument d) ∧
    (∀ q, searchWithScores (mkReader (mergeAll segs)) q =
      searchWithScores (mkReader segs) q) := by
  rw [merge_preserves_reader segs h]
  exact ⟨fun _ => rfl, fun _ => rfl, fun _ => rfl⟩

/-- C1 counterexample: commit doc `"1"` with field `a = x` as one segment and
doc `"1"` with field `b = y` as another.  Before `merge_all` the Reader
reports `{b: y}` (whole-document replacement, later segment wins); after
`merge_all` it reports `{a: x, b: y}` (the Merger merges field-by-field), so
the observations differ. -/
theorem merge_all_changes_get_document_cex :
    (mkReader (mergeAll
        [(commit (addDocument (openWriter []) ⟨"1", [⟨"a", "x", FieldType.STORED⟩]⟩)).1,
         (commit (addDocument (openWriter []) ⟨"1", [⟨"b", "y", FieldType.STORED⟩]⟩)).1])).getDocument
      "1" = [("a", "x"), ("b", "y")] ∧
    (mkReader
        [(commit (addDocument (openWriter []) ⟨"1", [⟨"a", "x", FieldType.STORED⟩]⟩)).1,
         (commit (addDocument (openWriter []) ⟨"1", [⟨"b", "y", FieldType.STORED⟩]⟩)).1]).getDocument
      "1" = [("b", "y")] := by
  constructor
  · decide
  · decide

/-- Witness for the amended C1 at a concrete two-segment index. -/
theorem merge_all_preserves_observations_witness :
    ((mkReader (mergeAll
        [(commit (addDocument (openWriter [])
          ⟨"1", [⟨"content", "apple banana", FieldType.TEXT⟩]⟩)).1,
         (commit (addDocument (openWriter [])
          ⟨"2", [⟨"content", "apple cherry", FieldType.TEXT⟩]⟩)).1])).termsDocs "apple" =
      (mkReader
        [(commit (addDocument (openWriter [])
          ⟨"1", [⟨"content", "apple banana", FieldType.TEXT⟩]⟩)).1,
         (commit (addDocument (openWriter [])
          ⟨"2", [⟨"content", "apple cherry", FieldType.TEXT⟩]⟩)).1]).termsDocs "apple") ∧
    ((mkReader (mergeAll
        [(commit (addDocument (openWriter [])
          ⟨"1", [⟨"content", "apple banana", FieldType.TEXT⟩]⟩)).1,
         (commit (addDocument (openWriter [])
          ⟨"2", [⟨"content", "apple cherry", FieldType.TEXT⟩]⟩)).1])).getDocument "1" =
      (mkReader
        [(commit (addDocument (openWriter [])
          ⟨"1", [⟨"content", "apple banana", FieldType.TEXT⟩]⟩)).1,
         (commit (addDocument (openWriter [])
          ⟨"2", [⟨"content", "apple cherry", FieldType.TEXT⟩]⟩)).1]).getDocument "1") :=
  ⟨(merge_all_preserves_observations _ (by decide)).1 "apple",
   (merge_all_preserves_observations _ (by decide)).2.1 "1"⟩

end Puceny
